import Mathlib

/-!
Verification of the pathvalidate file-path validation/sanitization engine.

The embedding translates `pathvalidate/_base.py` and `pathvalidate/_filepath.py`
into executable Lean definitions.  Python strings are modelled as `List Char`
(one element per code point, as in Python).  Machinery missing from the shipped
sources (`_common.py`, `_const.py`, `_filename.py`, `error.py`, `handler.py`) is
modelled from the specification; every such definition carries a doc comment
starting with "Modelled from the spec".  CPython standard-library leaf helpers
(`posixpath` / `ntpath` functions, `os.path.basename` / `splitext` /
`normpath` on a POSIX host) are translated from CPython 3.13 sources.
-/

set_option maxRecDepth 100000

namespace Pathvalidate

/-- Platform enumeration. From `_const.Platform` (values used throughout
`_base.py` / `_filepath.py`); the closed set is given in spec section 3. -/
inductive Platform where
  | posix
  | linux
  | windows
  | macos
  | universal
deriving DecidableEq, Repr

/-- Error reason enumeration. From `error.ErrorReason` (module missing from
src; the closed set is given in spec section 3). -/
inductive ErrorReason where
  | nullName
  | invalidCharacter
  | invalidLength
  | reservedName
  | malformedAbsPath
deriving DecidableEq, Repr

/-- Errors a validator can raise: a `ValidationError` carrying an
`ErrorReason`, or a Python `TypeError` for non-string, non-path-like input
(spec section 7 calls the latter INVALID_INPUT_TYPE). -/
inductive PvError where
  | validation (reason : ErrorReason)
  | typeMismatch
deriving DecidableEq, Repr

/-- Modelled from the spec: the null-value-handler strategy (`handler.py` is
missing from src).  Spec section 6: built-in strategies return a fixed string
(the default returns the empty string) or raise an error.  The
timestamp-returning strategy is represented by `returnValue` with an arbitrary
string. -/
inductive NullHandler where
  | returnValue (s : List Char)
  | raiseErr
deriving DecidableEq, Repr

/-- Result of invoking a null-value handler on a NULL_NAME validation error. -/
def NullHandler.apply : NullHandler → Except PvError (List Char)
  | .returnValue s => .ok s
  | .raiseErr => .error (.validation .nullName)

/-- Input values as seen by the Python entry points: strings, path objects
(`pathlib.PurePath`), or scalars of the wrong type (integers, booleans,
None). -/
inductive PathInput where
  | str (s : List Char)
  | pathObj (s : List Char)
  | intVal (n : Int)
  | boolVal (b : Bool)
  | noneVal
deriving DecidableEq, Repr

/-! ## Character classes (from `_base.py` lines 17-22) -/

/-- Modelled from the spec: `_common.unprintable_ascii_chars` (module missing
from src).  Spec section 3: "a base set of unprintable ASCII control
characters", i.e. the ASCII characters not in Python's `string.printable`:
code points 0-31 other than tab(9), LF(10), VT(11), FF(12), CR(13), plus
DEL(127). -/
def isUnprintableAscii (c : Char) : Bool :=
  (c.toNat < 32 && !(c.toNat == 9 || c.toNat == 10 || c.toNat == 11
      || c.toNat == 12 || c.toNat == 13)) || c.toNat == 127

/-- `BaseFile._INVALID_PATH_CHARS` (`_base.py` line 17). -/
def isInvalidPathChar (c : Char) : Bool := isUnprintableAscii c

/-- `BaseFile._INVALID_FILENAME_CHARS` (`_base.py` line 18). -/
def isInvalidFilenameChar (c : Char) : Bool := isInvalidPathChar c || c == '/'

/-- `BaseFile._INVALID_WIN_PATH_CHARS` (`_base.py` line 19). -/
def isInvalidWinPathChar (c : Char) : Bool :=
  isInvalidPathChar c || c == ':' || c == '*' || c == '?' || c == '"'
    || c == '<' || c == '>' || c == '|' || c == '\t' || c == '\n' || c == '\r'
    || c.toNat == 11 || c.toNat == 12

/-- `BaseFile._INVALID_WIN_FILENAME_CHARS` (`_base.py` lines 20-22). -/
def isInvalidWinFilenameChar (c : Char) : Bool :=
  isInvalidFilenameChar c || isInvalidWinPathChar c || c == '\\'

/-! ## Platform predicates (from `_base.py` lines 66-88) -/

/-- `BaseFile._is_windows(include_universal=True)`. -/
def isWindowsIncl (pf : Platform) : Bool := pf == .windows || pf == .universal

/-! ## Generic string helpers (List Char level) -/

/-- Python `re.sub` of a character class: each character satisfying `bad` is
replaced by the replacement string `rep` (a single left-to-right pass). -/
def subChars (bad : Char → Bool) (rep : List Char) (l : List Char) : List Char :=
  l.flatMap (fun c => if bad c then rep else [c])

/-- Python `str.split(sep)` for a one-character separator: always returns at
least one (possibly empty) piece. -/
def splitOnChar (sep : Char) : List Char → List (List Char)
  | [] => [[]]
  | c :: cs =>
    match splitOnChar sep cs with
    | [] => [[]]
    | h :: t => if c = sep then [] :: h :: t else (c :: h) :: t

/-- Python `str.replace("\\", "/")`. -/
def bsToSlash (l : List Char) : List Char :=
  l.map (fun c => if c = '\\' then '/' else c)

/-- Python `str.upper()` restricted to ASCII (sufficient for the reserved-name
tables, which are ASCII). -/
def upperAscii (l : List Char) : List Char := l.map Char.toUpper

/-- Byte length of the UTF-8 encoding of one character
(`len(ch.encode("utf-8"))`). -/
def utf8CharLen (c : Char) : Nat :=
  if c.toNat < 0x80 then 1
  else if c.toNat < 0x800 then 2
  else if c.toNat < 0x10000 then 3
  else 4

/-- Byte length of the UTF-8 encoding of a string (`len(s.encode("utf-8"))`,
the default filesystem encoding). -/
def utf8Len (l : List Char) : Nat := (l.map utf8CharLen).sum

/-- True when every character is whitespace and the string is nonempty
(Python `s != "" and s.strip() == ""`). -/
def isWhitespaceOnly (l : List Char) : Bool :=
  !l.isEmpty && l.all (fun c => c == ' ' || c == '\t' || c == '\n'
    || c == '\r' || c.toNat == 11 || c.toNat == 12)

/-! ## CPython standard-library path helpers (leaf dependencies)

Translated from CPython 3.13 `posixpath.py` / `ntpath.py` / `genericpath.py`.
The host running the library is assumed POSIX, so `os.path` functions used by
the source (`normpath`, `basename`, `splitext`) are the `posixpath` ones. -/

/-- CPython `posixpath.isabs`: a path is POSIX-absolute iff it starts with a
slash (`s.startswith(sep)`). -/
def posixIsAbs (l : List Char) : Bool := l.take 1 = ['/']

/-- CPython `posixpath.splitdrive`: POSIX paths never carry a drive. -/
def posixSplitdrive (l : List Char) : List Char × List Char := ([], l)

/-- The component-collapsing loop of CPython `posixpath.normpath`:
accumulator holds the collected components in reverse. -/
def normComps (islashes : Nat) : List (List Char) → List (List Char) → List (List Char)
  | [], acc => acc.reverse
  | comp :: rest, acc =>
    if comp = [] ∨ comp = ['.'] then normComps islashes rest acc
    else if comp ≠ ['.', '.'] ∨ (islashes = 0 ∧ acc = [])
        ∨ (acc ≠ [] ∧ acc.headD [] = ['.', '.']) then
      normComps islashes rest (comp :: acc)
    else
      match acc with
      | [] => normComps islashes rest []
      | _ :: t => normComps islashes rest t

/-- The `initial_slashes` computation of CPython `posixpath.normpath`: 2 for a
leading double (but not triple) slash, 1 for any other leading slash, else
0. -/
def normSlashes (l : List Char) : Nat :=
  if l.take 1 = ['/'] then
    (if l.take 2 = ['/', '/'] ∧ l.take 3 ≠ ['/', '/', '/'] then 2 else 1)
  else 0

/-- CPython `posixpath.normpath`: collapse `.` and `..` components and
redundant separators; empty input normalizes to `"."`; a leading double slash
(but not triple) is preserved (`return path or '.'` is the final
empty-to-dot fallback). -/
def posixNormpath (l : List Char) : List Char :=
  if l = [] then ['.']
  else if List.replicate (normSlashes l) '/'
      ++ List.intercalate ['/'] (normComps (normSlashes l) (splitOnChar '/' l) []) = []
    then ['.']
  else List.replicate (normSlashes l) '/'
      ++ List.intercalate ['/'] (normComps (normSlashes l) (splitOnChar '/' l) [])

/-- Map `/` to `\` (the normalization CPython `ntpath` applies before
structural inspection). -/
def slashToBs (l : List Char) : List Char :=
  l.map (fun c => if c = '/' then '\\' else c)

/-- True for the two NT separators. -/
def isNtSep (c : Char) : Bool := c == '\\' || c == '/'

/-- Index of the first NT separator at or after position `start`, as CPython
`str.find` over the separator-normalized string (-1 encoded as `none`). -/
def findNtSep (l : List Char) (start : Nat) : Option Nat :=
  (l.drop start).findIdx? (fun c => isNtSep c) |>.map (fun i => start + i)

/-- CPython 3.13 `ntpath.splitroot`, returning (drive, root, tail).  The
`\\?\UNC\` long-UNC prefix case is included for fidelity. -/
def ntSplitroot (p : List Char) : List Char × List Char × List Char :=
  let normp := slashToBs p
  if normp.take 1 = ['\\'] then
    if normp.take 2 = ['\\', '\\'] then
      -- UNC drives, e.g. \\server\share or \\?\UNC\server\share
      let start : Nat :=
        if upperAscii (normp.take 8) = ['\\', '\\', '?', '\\', 'U', 'N', 'C', '\\']
        then 8 else 2
      match findNtSep normp start with
      | none => (p, [], [])
      | some index =>
        match findNtSep normp (index + 1) with
        | none => (p, [], [])
        | some index2 =>
          (p.take index2, (p.drop index2).take 1, p.drop (index2 + 1))
    else
      -- Relative path with root, e.g. \Windows
      ([], p.take 1, p.drop 1)
  else if (normp.drop 1).take 1 = [':'] then
    if (normp.drop 2).take 1 = ['\\'] then
      -- Absolute drive-letter path, e.g. X:\Windows
      (p.take 2, (p.drop 2).take 1, p.drop 3)
    else
      -- Relative path with drive, e.g. X:Windows
      (p.take 2, [], p.drop 2)
  else
    ([], [], p)

/-- CPython `ntpath.splitdrive`: drive, and root concatenated with tail. -/
def ntSplitdrive (p : List Char) : List Char × List Char :=
  let r := ntSplitroot p
  (r.1, r.2.1 ++ r.2.2)

/-- CPython 3.13 `ntpath.isabs`: normalize the separators of the first three
characters; absolute iff the path has a drive letter followed by a separator,
or starts with two separators. -/
def ntIsAbs (s : List Char) : Bool :=
  let pfx := slashToBs (s.take 3)
  ((pfx.drop 1).take 2 = [':', '\\'] : Bool) || (pfx.take 2 = ['\\', '\\'] : Bool)

/-- CPython `posixpath.basename` (`os.path.basename` on the POSIX host): the
part after the last slash. -/
def posixBasename (l : List Char) : List Char :=
  (splitOnChar '/' l).getLastD []

/-- Number of leading occurrences of `c`. -/
def leadingCount (c : Char) : List Char → Nat
  | [] => 0
  | x :: xs => if x = c then leadingCount c xs + 1 else 0

/-- Index (from the start) of the last occurrence of `c`, or `none`
(CPython `str.rfind`). -/
def rfindChar (c : Char) (l : List Char) : Option Nat :=
  (l.reverse.findIdx? (fun x => x = c)).map (fun i => l.length - 1 - i)

/-- CPython `posixpath.splitext` (`os.path.splitext` on the POSIX host),
via `genericpath._splitext`: split off the extension at the last dot, provided
the dot lies after the last separator and a non-dot character occurs between
them (so names made of leading dots have no extension). -/
def posixSplitext (p : List Char) : List Char × List Char :=
  match rfindChar '.' p with
  | none => (p, [])
  | some di =>
    let nameStart : Nat := match rfindChar '/' p with | none => 0 | some s => s + 1
    if nameStart ≤ di ∧ ((p.drop nameStart).take (di - nameStart)).any (fun c => c ≠ '.') then
      (p.take di, p.drop di)
    else (p, [])

/-! ## Modelled missing modules: `_common.validate_pathtype`, `_const`,
`_filename`, `handler` -/

/-- Modelled from the spec: `_common.validate_pathtype` on a string value
(module missing from src).  Spec sections 4.2/4.4/7: an empty value raises
NULL_NAME; with whitespace disallowed (Windows-style validation) a
whitespace-only value is likewise treated as null; otherwise the string is
accepted.  Non-string input is handled by `validatePathtypeInput` below. -/
def validatePathtypeStr (allowWs : Bool) (s : List Char) : Except PvError Unit :=
  if s = [] then .error (.validation .nullName)
  else if !allowWs && isWhitespaceOnly s then .error (.validation .nullName)
  else .ok ()

/-- Modelled from the spec: `_common.validate_pathtype` over arbitrary input
values.  Spec section 7: non-string, non-path-like input (integers, booleans,
None) raises a generic type-mismatch error (a Python `TypeError`); path
objects are accepted. -/
def validatePathtypeInput (allowWs : Bool) : PathInput → Except PvError Unit
  | .str s => validatePathtypeStr allowWs s
  | .pathObj _ => .ok ()
  | _ => .error .typeMismatch

/-- Modelled from the spec: the Windows reserved device names
(`_const` is missing from src).  Spec section 3: "Windows/NTFS device names
(e.g. CON, PRN, AUX, COM1-COM9, LPT1-LPT9, case-insensitive)". -/
def winDeviceNames : List (List Char) :=
  [['C', 'O', 'N'], ['P', 'R', 'N'], ['A', 'U', 'X'],
   ['C', 'O', 'M', '1'], ['C', 'O', 'M', '2'], ['C', 'O', 'M', '3'],
   ['C', 'O', 'M', '4'], ['C', 'O', 'M', '5'], ['C', 'O', 'M', '6'],
   ['C', 'O', 'M', '7'], ['C', 'O', 'M', '8'], ['C', 'O', 'M', '9'],
   ['L', 'P', 'T', '1'], ['L', 'P', 'T', '2'], ['L', 'P', 'T', '3'],
   ['L', 'P', 'T', '4'], ['L', 'P', 'T', '5'], ['L', 'P', 'T', '6'],
   ['L', 'P', 'T', '7'], ['L', 'P', 'T', '8'], ['L', 'P', 'T', '9']]

/-- Modelled from the spec: `_const._NTFS_RESERVED_FILE_NAMES` (missing from
src).  Spec section 4.5 step 5 describes the path sanitizer's direct
underscore-suffix rule as applying to "any component exactly matching a
Windows-reserved device name", so the table is modelled as the device-name
set. -/
def ntfsReservedNames : List (List Char) := winDeviceNames

/-- Modelled from the spec: `FileNameValidator.reserved_keywords`
(`_filename.py` is missing from src).  Spec section 3 specifies the device
names for Windows; the Universal platform enforces the union of all
platforms' constraints (spec section 3), so it also carries them. -/
def fnameReservedKeywords (pf : Platform) : List (List Char) :=
  if pf == .windows || pf == .universal then winDeviceNames else []

/-- `FilePathValidator._MACOS_RESERVED_FILE_PATHS` (`_filepath.py` line
143). -/
def macosReservedFilePaths : List (List Char) := [['/'], [':']]

/-- `FilePathValidator.reserved_keywords` (`_filepath.py` lines 145-155):
POSIX/macOS/Universal add "/" and ":", Linux adds "/", Windows adds
nothing. -/
def filePathReservedKeywords (pf : Platform) : List (List Char) :=
  if pf == .universal || pf == .posix || pf == .macos then macosReservedFilePaths
  else if pf == .linux then [['/']]
  else []

/-- `BaseValidator.__extract_root_name` (`_base.py` lines 171-173):
`os.path.splitext(os.path.basename(path))[0]` on the POSIX host. -/
def extractRootName (path : List Char) : List Char :=
  (posixSplitext (posixBasename path)).1

/-- `BaseValidator._validate_reserved_keywords` (`_base.py` lines 158-169):
when reserved checking is on, raise RESERVED_NAME if the uppercased extracted
root name occurs in the given reserved-keyword table. -/
def validateReservedKeywords (keywords : List (List Char)) (checkReserved : Bool)
    (name : List Char) : Except PvError Unit :=
  if !checkReserved then .ok ()
  else if upperAscii (extractRootName name) ∈ keywords then
    .error (.validation .reservedName)
  else .ok ()

/-- The per-platform invalid-character class used by the filename-level
sanitizer/validator (`_base.py` lines 17-22 as selected in `_filename.py`,
which is missing from src; spec section 3: Windows filename level adds the
Windows path characters plus backslash). -/
def isInvalidFilenameCharFor (pf : Platform) (c : Char) : Bool :=
  if isWindowsIncl pf then isInvalidWinFilenameChar c else isInvalidFilenameChar c

/-- Modelled from the spec: `FileNameSanitizer.sanitize` (`_filename.py` is
missing from src).  Spec section 4.3: replace every invalid character with the
replacement text; if reserved checking is on and the sanitized stem matches a
reserved name case-insensitively, suffix the stem with an underscore (spec
section 8 example: "LPT9.txt" becomes "LPT9_.txt"); an empty input or an
empty result invokes the injected null-value handler. -/
def fnameSanitize (pf : Platform) (checkReserved : Bool) (handler : NullHandler)
    (rep : List Char) (value : List Char) : Except PvError (List Char) :=
  if value = [] then handler.apply
  else
    let t := subChars (isInvalidFilenameCharFor pf) rep value
    let stem := (posixSplitext t).1
    let ext := (posixSplitext t).2
    let t :=
      if checkReserved ∧ upperAscii stem ∈ fnameReservedKeywords pf then
        stem ++ ['_'] ++ ext
      else t
    if t = [] then handler.apply else .ok t

/-! ## Engine configuration (`BaseFile.__init__`, `_base.py` lines 40-107) -/

/-- `BaseFile._get_default_max_path_len` (`_base.py` lines 97-107). -/
def defaultMaxPathLen (pf : Platform) : Int :=
  match pf with
  | .linux => 4096
  | .windows => 260
  | .posix => 1024
  | .macos => 1024
  | .universal => 260

/-- Immutable validator/sanitizer configuration produced by
`BaseFile.__init__`. -/
structure BaseCfg where
  pf : Platform
  minLen : Int
  maxLen : Int
  checkReserved : Bool
deriving DecidableEq, Repr

/-- `BaseFile.__init__` (`_base.py` lines 40-64) together with
`_validate_max_len` (lines 90-95): normalize `min_len` (non-positive values
become the default 1), derive `max_len` from the platform when non-positive,
clamp it to the platform ceiling, and fail fast (a Python `ValueError`,
modelled as the error branch) when the resulting configuration violates
`1 <= max_len` or `min_len <= max_len`. -/
def baseFileInit (minLen maxLen : Int) (checkReserved : Bool)
    (platformMaxLen : Option Int) (pf : Platform) : Except (List Char) BaseCfg :=
  let m := if minLen ≤ 0 then 1 else minLen
  let m := max m 1
  let pml := platformMaxLen.getD (defaultMaxPathLen pf)
  let M := if maxLen ≤ 0 then pml else maxLen
  let M := min M pml
  if M < 1 then .error ['m', 'a', 'x']
  else if m > M then .error ['m', 'i', 'n']
  else .ok { pf := pf, minLen := m, maxLen := M, checkReserved := checkReserved }

/-- The default validator configuration for a platform, as built by
`validate_filepath` / `is_valid_filepath` (`_filepath.py` lines 348-354 and
378-384 with default arguments: `min_len` 1, `max_len` None, reserved
checking on). -/
def defaultCfg (pf : Platform) : BaseCfg :=
  { pf := pf, minLen := 1, maxLen := defaultMaxPathLen pf, checkReserved := true }

/-! ## FilePathValidator (`_filepath.py` lines 138-293) -/

/-- The drive-splitting function selected at construction (`_filepath.py`
lines 177-180): `ntpath.splitdrive` for Windows/Universal, otherwise
`posixpath.splitdrive`. -/
def splitDriveFor (pf : Platform) (v : List Char) : List Char × List Char :=
  if isWindowsIncl pf then ntSplitdrive v else posixSplitdrive v

/-- `FilePathValidator.validate_abspath` (`_filepath.py` lines 228-261).
The universal-platform branch of the source (lines 246-254) constructs a
`ValidationError` object but never raises or returns it, so it is a no-op and
contributes nothing here. -/
def FilePathValidator.validateAbspath (cfg : BaseCfg) (value : List Char) :
    Except PvError Unit :=
  let isPosixAbs := posixIsAbs value
  let isNtAbs := ntIsAbs value
  if (cfg.pf == .windows && isNtAbs) || (cfg.pf == .linux && isPosixAbs) then .ok ()
  else if isWindowsIncl cfg.pf && isPosixAbs then
    .error (.validation .malformedAbsPath)
  else
    let drive := (ntSplitdrive value).1
    if cfg.pf ≠ .windows ∧ drive ≠ [] ∧ isNtAbs then
      .error (.validation .malformedAbsPath)
    else .ok ()

/-- `FilePathValidator.__validate_unix_filepath` (`_filepath.py` lines
263-270): raise INVALID_CHARACTER when the tail contains an invalid path
character. -/
def unixFilepathCheck (tl : List Char) : Except PvError Unit :=
  if tl.any isInvalidPathChar then .error (.validation .invalidCharacter)
  else .ok ()

/-- Match of `FilePathValidator._RE_NTFS_RESERVED` (`_filepath.py` lines
139-142): the alternation of anchored patterns `^/name$` (IGNORECASE) matches
exactly the strings "/name" up to case. -/
def ntfsTailMatch (v : List Char) : Bool :=
  ntfsReservedNames.any (fun n => upperAscii v = '/' :: upperAscii n)

/-- `FilePathValidator.__validate_win_filepath` (`_filepath.py` lines
272-292): invalid Windows path characters raise INVALID_CHARACTER; after
stripping the drive, a tail matching the NTFS reserved pattern raises
RESERVED_NAME. -/
def winFilepathCheck (tl : List Char) : Except PvError Unit :=
  if tl.any isInvalidWinPathChar then .error (.validation .invalidCharacter)
  else
    let v := (ntSplitdrive tl).2
    if v ≠ [] ∧ ntfsTailMatch v then .error (.validation .reservedName)
    else .ok ()

/-- The per-entry loop of `FilePathValidator.validate` (`_filepath.py` lines
217-221): empty, "." and ".." entries are skipped; every other entry goes
through the filename validator's reserved-keyword check. -/
def checkEntries (ks : List (List Char)) (cr : Bool) :
    List (List Char) → Except PvError Unit
  | [] => .ok ()
  | e :: rest =>
    if e = [] ∨ e = ['.'] ∨ e = ['.', '.'] then checkEntries ks cr rest
    else
      match validateReservedKeywords ks cr e with
      | .error er => .error er
      | .ok _ => checkEntries ks cr rest

/-- `FilePathValidator.validate` (`_filepath.py` lines 182-226): type/null
check, absolute-path style check, drive/tail split with trivial success on an
empty tail, byte-length bounds, whole-tail reserved-keyword check, per-entry
reserved check after separator normalization, and the platform-specific
whole-tail character scan. -/
def FilePathValidator.validate (cfg : BaseCfg) (value : List Char) :
    Except PvError Unit :=
  match validatePathtypeStr (!isWindowsIncl cfg.pf) value with
  | .error e => .error e
  | .ok _ =>
    match FilePathValidator.validateAbspath cfg value with
    | .error e => .error e
    | .ok _ =>
      let tl := (splitDriveFor cfg.pf value).2
      if tl = [] then .ok ()
      else if (utf8Len tl : Int) > cfg.maxLen then .error (.validation .invalidLength)
      else if (utf8Len tl : Int) < cfg.minLen then .error (.validation .invalidLength)
      else
        match validateReservedKeywords (filePathReservedKeywords cfg.pf)
            cfg.checkReserved tl with
        | .error e => .error e
        | .ok _ =>
          match checkEntries (fnameReservedKeywords cfg.pf) cfg.checkReserved
              (splitOnChar '/' (bsToSlash tl)) with
          | .error e => .error e
          | .ok _ =>
            if isWindowsIncl cfg.pf then winFilepathCheck (bsToSlash tl)
            else unixFilepathCheck (bsToSlash tl)

/-- `FilePathValidator.validate` lifted to arbitrary input values: the
type/null check (`validate_pathtype`) raises a `TypeError` for non-string,
non-path-like input before any string processing happens; a `PurePath` is
converted to its string.  (Separator normalization performed by `PurePath`
construction itself is outside the engine and not modelled.) -/
def FilePathValidator.validateInput (cfg : BaseCfg) (v : PathInput) :
    Except PvError Unit :=
  match v with
  | .str s => FilePathValidator.validate cfg s
  | .pathObj s => FilePathValidator.validate cfg s
  | _ => .error .typeMismatch

/-- `AbstractValidator.is_valid` (`_base.py` lines 115-121): the source
catches both `TypeError` and `ValidationError` (line 118) and converts either
into `False`. -/
def FilePathValidator.isValidInput (cfg : BaseCfg) (v : PathInput) : Bool :=
  match FilePathValidator.validateInput cfg v with
  | .error _ => false
  | .ok _ => true

/-- `is_valid` on a plain string input. -/
def FilePathValidator.isValidStr (cfg : BaseCfg) (value : List Char) : Bool :=
  FilePathValidator.isValidInput cfg (.str value)

/-! ## FilePathSanitizer (`_filepath.py` lines 25-135) -/

/-- Sanitizer configuration: the validator configuration plus the injected
null-value handler, the normalize flag, and the validate-after-sanitize flag
(`AbstractSanitizer.__init__`, `_base.py` lines 127-150, and
`FilePathSanitizer.__init__`, `_filepath.py` lines 26-71). -/
structure SanitizerCfg where
  base : BaseCfg
  handler : NullHandler
  normalize : Bool
  validateAfter : Bool
deriving DecidableEq, Repr

/-- `FilePathSanitizer.__get_path_separator` (`_filepath.py` lines 131-135):
backslash only for the strict Windows platform. -/
def pathSep (pf : Platform) : List Char :=
  if pf == .windows then ['\\'] else ['/']

/-- The entry loop of `FilePathSanitizer.sanitize` (`_filepath.py` lines
92-108), with the accumulator kept in reverse: an entry exactly matching an
NTFS reserved name is suffixed with an underscore directly; other entries go
through the filename sanitizer; an entry that sanitizes to empty is kept (as
empty) only when the accumulated list is still empty. -/
def sanitizeEntriesAux (pf : Platform) (checkReserved : Bool)
    (handler : NullHandler) (rep : List Char) :
    List (List Char) → List (List Char) → Except PvError (List (List Char))
  | [], acc => .ok acc.reverse
  | e :: rest, acc =>
    if e ∈ ntfsReservedNames then
      sanitizeEntriesAux pf checkReserved handler rep rest ((e ++ ['_']) :: acc)
    else
      match fnameSanitize pf checkReserved handler rep e with
      | .error er => .error er
      | .ok se =>
        if se = [] then
          if acc = [] then sanitizeEntriesAux pf checkReserved handler rep rest ([] :: acc)
          else sanitizeEntriesAux pf checkReserved handler rep rest acc
        else sanitizeEntriesAux pf checkReserved handler rep rest (se :: acc)

/-- The assembly stage of `FilePathSanitizer.sanitize` (`_filepath.py` lines
84-110): split the drive, substitute invalid characters in the tail, normalize
(via `os.path.normpath`, the POSIX one on the host) when enabled and the tail
is nonempty, split into entries on both separators, process the entries, and
join with the platform separator (prepending the drive when present). -/
def FilePathSanitizer.assemble (cfg : SanitizerCfg) (rep : List Char)
    (value : List Char) : Except PvError (List Char) :=
  let pf := cfg.base.pf
  let dr := splitDriveFor pf value
  let t := subChars (if isWindowsIncl pf then isInvalidWinPathChar else isInvalidPathChar)
    rep dr.2
  let t := if cfg.normalize ∧ t ≠ [] then posixNormpath t else t
  let acc0 : List (List Char) := if dr.1 ≠ [] then [dr.1] else []
  match sanitizeEntriesAux pf cfg.base.checkReserved cfg.handler rep
      (splitOnChar '/' (bsToSlash t)) acc0 with
  | .error er => .error er
  | .ok entries => .ok (List.intercalate (pathSep pf) entries)

/-- `FilePathSanitizer.sanitize` (`_filepath.py` lines 73-123) on a string
input: the initial type/null check routes NULL_NAME to the null-value handler
(lines 74-82); the assembled result is validated, a NULL_NAME failure there is
replaced by the handler's value and every other failure is discarded (lines
111-115); with `validate_after_sanitize` set, a final validation surfaces any
failure (lines 117-118). -/
def FilePathSanitizer.sanitize (cfg : SanitizerCfg) (rep : List Char)
    (value : List Char) : Except PvError (List Char) :=
  match validatePathtypeStr (!isWindowsIncl cfg.base.pf) value with
  | .error (.validation .nullName) => cfg.handler.apply
  | .error e => .error e
  | .ok _ =>
    match FilePathSanitizer.assemble cfg rep value with
    | .error er => .error er
    | .ok sp =>
      let guarded : Except PvError (List Char) :=
        match FilePathValidator.validate cfg.base sp with
        | .error (.validation .nullName) => cfg.handler.apply
        | _ => .ok sp
      match guarded with
      | .error er => .error er
      | .ok sp2 =>
        if cfg.validateAfter then
          match FilePathValidator.validate cfg.base sp2 with
          | .error er => .error er
          | .ok _ => .ok sp2
        else .ok sp2

/-- The default sanitizer configuration built by `sanitize_filepath`
(`_filepath.py` lines 463-471 with default arguments: `max_len` None so the
platform ceiling applies, reserved checking on, normalization on, the
null-value handler returning the empty string, no validation after
sanitization). -/
def defaultSanitizerCfg (pf : Platform) : SanitizerCfg :=
  { base := defaultCfg pf, handler := .returnValue [], normalize := true,
    validateAfter := false }

/-! ## Auxiliary pure forms and concrete inputs used by the theorems -/

/-- Invariant of the accumulator during `normComps 0`: read in reverse it is a
run of ".." components followed by ".."-free components. -/
def accDots (acc : List (List Char)) : Prop :=
  ∃ (ds : List (List Char)) (m : Nat),
    acc = ds.reverse ++ List.replicate m ['.', '.'] ∧ ['.', '.'] ∉ ds

/-- The pure value computed by the Linux filename sanitizer with the default
handler and empty replacement: the reserved table is empty on Linux, so only
the character substitution remains. -/
def fnameL (e : List Char) : List Char := subChars isInvalidFilenameChar [] e

/-- Pure form of the Linux sanitizer entry loop with the default handler and
empty replacement (the handler never raises, so the loop is total). -/
def procL : List (List Char) → List (List Char) → List (List Char)
  | [], acc => acc.reverse
  | e :: rest, acc =>
    if e ∈ ntfsReservedNames then procL rest ((e ++ ['_']) :: acc)
    else if fnameL e = [] then
      (if acc = [] then procL rest ([] :: acc) else procL rest acc)
    else procL rest (fnameL e :: acc)

/-- Pure form of the assembled result of `FilePathSanitizer.sanitize` on the
Linux platform with the default configuration and empty replacement text. -/
def assembleL (x : List Char) : List Char :=
  List.intercalate ['/']
    (procL (splitOnChar '/' (bsToSlash
      (if subChars isInvalidPathChar [] x = [] then []
       else posixNormpath (subChars isInvalidPathChar [] x)))) [])

/-- The transformation a single nonempty entry undergoes in the Linux
sanitizer entry loop: NTFS-reserved entries get an underscore suffix, other
entries go through the filename sanitizer's character substitution. -/
def procC (c : List Char) : List Char :=
  if c ∈ ntfsReservedNames then c ++ ['_'] else fnameL c

/-- A path component that the Linux sanitizer maps to itself: nonempty, not a
dot component, separator-free, free of invalid filename characters, and not an
NTFS reserved name. -/
def cleanComp (c : List Char) : Prop :=
  c ≠ [] ∧ c ≠ ['.'] ∧ c ≠ ['.', '.'] ∧ '\\' ∉ c
    ∧ (∀ ch ∈ c, isInvalidFilenameChar ch = false) ∧ c ∉ ntfsReservedNames

/-- Normal form of the Linux sanitizer output: empty, a bare dot, an absolute
path of clean components, or a relative path of leading ".." components
followed by clean components. -/
def canonicalOut (y : List Char) : Prop :=
  y = [] ∨ y = ['.']
  ∨ (∃ cs : List (List Char), y = '/' :: List.intercalate ['/'] cs ∧ cs ≠ []
      ∧ ∀ c ∈ cs, cleanComp c)
  ∨ (∃ (m : Nat) (ds : List (List Char)),
      y = List.intercalate ['/'] (List.replicate m ['.', '.'] ++ ds)
      ∧ List.replicate m ['.', '.'] ++ ds ≠ [] ∧ (∀ c ∈ ds, cleanComp c))

/-- A 261-byte universal-platform path made of 131 one-byte components: each
component is well under the 260-byte ceiling but the joined path exceeds
it. -/
def overlongPathA : List Char := List.intercalate ['/'] (List.replicate 131 ['a'])

/-- A second 261-byte path (distinct content) used for the sanitizer's
discarded-validation claim. -/
def overlongPathB : List Char := List.intercalate ['/'] (List.replicate 131 ['b'])

/-! ## Basic lemmas about the string helpers -/

theorem splitOnChar_ne_nil (sep : Char) (l : List Char) : splitOnChar sep l ≠ [] := by
  cases l with
  | nil => simp [splitOnChar]
  | cons c cs =>
    simp only [splitOnChar]
    rcases hh : splitOnChar sep cs with _ | ⟨a, b⟩
    · simp
    · by_cases hc : c = sep <;> simp [hc]

theorem splitOnChar_cons_sep (sep : Char) (l : List Char) :
    splitOnChar sep (sep :: l) = [] :: splitOnChar sep l := by
  simp only [splitOnChar]
  cases h : splitOnChar sep l with
  | nil => exact absurd h (splitOnChar_ne_nil sep l)
  | cons a b => simp

theorem splitOnChar_cons_ne (sep c : Char) (l : List Char) (hc : c ≠ sep) :
    splitOnChar sep (c :: l) =
      (c :: (splitOnChar sep l).headD []) :: (splitOnChar sep l).tail := by
  simp only [splitOnChar]
  cases h : splitOnChar sep l with
  | nil => exact absurd h (splitOnChar_ne_nil sep l)
  | cons a b => simp [hc]

theorem mem_splitOnChar_not_sep (sep : Char) (l : List Char) :
    ∀ p ∈ splitOnChar sep l, sep ∉ p := by
  induction l with
  | nil => intro p hp; simp [splitOnChar] at hp; simp [hp]
  | cons c cs ih =>
    intro p hp
    by_cases hc : c = sep
    · subst hc
      rw [splitOnChar_cons_sep] at hp
      rcases List.mem_cons.mp hp with hp | hp
      · simp [hp]
      · exact ih p hp
    · rw [splitOnChar_cons_ne sep c cs hc] at hp
      cases h : splitOnChar sep cs with
      | nil => exact absurd h (splitOnChar_ne_nil sep cs)
      | cons a b =>
        rw [h] at hp
        rcases List.mem_cons.mp hp with hp | hp
        · subst hp
          intro hmem
          rcases List.mem_cons.mp hmem with hmem | hmem
          · exact hc hmem.symm
          · exact ih a (by simp [h]) hmem
        · exact ih p (by simp [h]; exact Or.inr hp)

theorem mem_splitOnChar_subset (sep : Char) (l : List Char) :
    ∀ p ∈ splitOnChar sep l, ∀ c ∈ p, c ∈ l := by
  induction l with
  | nil => intro p hp; simp [splitOnChar] at hp; simp [hp]
  | cons a as ih =>
    intro p hp c hc
    by_cases ha : a = sep
    · subst ha
      rw [splitOnChar_cons_sep] at hp
      rcases List.mem_cons.mp hp with hp | hp
      · simp [hp] at hc
      · exact List.mem_cons_of_mem _ (ih p hp c hc)
    · rw [splitOnChar_cons_ne sep a as ha] at hp
      cases h : splitOnChar sep as with
      | nil => exact absurd h (splitOnChar_ne_nil sep as)
      | cons q qs =>
        rw [h] at hp
        rcases List.mem_cons.mp hp with hp | hp
        · subst hp
          rcases List.mem_cons.mp hc with hc | hc
          · simp [hc]
          · exact List.mem_cons_of_mem _ (ih q (by simp [h]) c (by simpa using hc))
        · exact List.mem_cons_of_mem _ (ih p (by simp [h]; exact Or.inr hp) c hc)

theorem splitOnChar_intercalate (sep : Char) (cs : List (List Char))
    (hne : cs ≠ []) (hfree : ∀ p ∈ cs, sep ∉ p) :
    splitOnChar sep (List.intercalate [sep] cs) = cs := by
  induction cs with
  | nil => exact absurd rfl hne
  | cons p ps ih =>
    cases ps with
    | nil =>
      simp only [List.intercalate, List.intersperse, List.flatten]
      have hp : sep ∉ p := hfree p (by simp)
      clear ih hne hfree
      induction p with
      | nil => simp [splitOnChar]
      | cons c cc ihp =>
        have hcs : c ≠ sep := fun h => hp (by simp [h])
        have hcc : sep ∉ cc := fun h => hp (List.mem_cons_of_mem _ h)
        rw [show (c :: cc) ++ [] = c :: (cc ++ []) from rfl]
        rw [splitOnChar_cons_ne sep c (cc ++ []) hcs, ihp hcc]
        simp
    | cons q qs =>
      have hrest : List.intercalate [sep] (q :: qs) ≠ [] → True := fun _ => trivial
      have hi : List.intercalate [sep] (p :: q :: qs)
          = p ++ sep :: List.intercalate [sep] (q :: qs) := by
        simp [List.intercalate, List.intersperse]
      rw [hi]
      have hp : sep ∉ p := hfree p (by simp)
      have ihq : splitOnChar sep (List.intercalate [sep] (q :: qs)) = q :: qs :=
        ih (by simp) (fun r hr => hfree r (List.mem_cons_of_mem _ hr))
      clear ih hne hfree hrest hi
      induction p with
      | nil => simpa [splitOnChar_cons_sep] using ihq
      | cons c cc ihp =>
        have hcs : c ≠ sep := fun h => hp (by simp [h])
        have hcc : sep ∉ cc := fun h => hp (List.mem_cons_of_mem _ h)
        rw [List.cons_append, splitOnChar_cons_ne sep c _ hcs, ihp hcc]
        simp

theorem mem_intercalate_sep (s : Char) (cs : List (List Char)) :
    ∀ c ∈ List.intercalate [s] cs, c = s ∨ ∃ p ∈ cs, c ∈ p := by
  induction cs with
  | nil => intro c hc; simp [List.intercalate] at hc
  | cons p ps ih =>
    intro c hc
    cases ps with
    | nil =>
      simp only [List.intercalate, List.intersperse, List.flatten, List.append_nil] at hc
      exact Or.inr ⟨p, by simp, hc⟩
    | cons q qs =>
      have hi : List.intercalate [s] (p :: q :: qs)
          = p ++ s :: List.intercalate [s] (q :: qs) := by
        simp [List.intercalate, List.intersperse]
      rw [hi] at hc
      rcases List.mem_append.mp hc with hc | hc
      · exact Or.inr ⟨p, by simp, hc⟩
      · rcases List.mem_cons.mp hc with hc | hc
        · exact Or.inl hc
        · rcases ih c hc with h | ⟨r, hr, hcr⟩
          · exact Or.inl h
          · exact Or.inr ⟨r, List.mem_cons_of_mem _ hr, hcr⟩

theorem subChars_nil_rep (bad : Char → Bool) (l : List Char) :
    subChars bad [] l = l.filter (fun c => !bad c) := by
  induction l with
  | nil => rfl
  | cons c cs ih =>
    simp only [subChars, List.flatMap] at ih ⊢
    by_cases h : bad c <;> simp [List.filter, h, ih]

theorem subChars_nil_of_clean (bad : Char → Bool) (l : List Char)
    (h : ∀ c ∈ l, bad c = false) : subChars bad [] l = l := by
  rw [subChars_nil_rep]
  exact List.filter_eq_self.mpr (fun c hc => by simp [h c hc])

theorem mem_subChars_nil (bad : Char → Bool) (l : List Char) :
    ∀ c ∈ subChars bad [] l, c ∈ l ∧ bad c = false := by
  intro c hc
  rw [subChars_nil_rep] at hc
  have := List.mem_filter.mp hc
  exact ⟨this.1, by simpa using this.2⟩

theorem bsToSlash_eq_self (l : List Char) : '\\' ∉ l → bsToSlash l = l := by
  induction l with
  | nil => intro _; rfl
  | cons c cs ih =>
    intro h
    have hc : c ≠ '\\' := fun he => h (by simp [he])
    have hcs : '\\' ∉ cs := fun hm => h (List.mem_cons_of_mem _ hm)
    simp only [bsToSlash, List.map_cons] at ih ⊢
    rw [if_neg hc, ih hcs]

/-! ## Lemmas about the normpath component collapsing -/

theorem normComps_nil (k : Nat) (acc : List (List Char)) :
    normComps k [] acc = acc.reverse := rfl

theorem normComps_skip (k : Nat) (comp : List Char) (rest acc : List (List Char))
    (h : comp = [] ∨ comp = ['.']) :
    normComps k (comp :: rest) acc = normComps k rest acc := by
  simp only [normComps]
  rw [if_pos h]

theorem normComps_push (k : Nat) (comp : List Char) (rest acc : List (List Char))
    (h1 : ¬(comp = [] ∨ comp = ['.']))
    (h2 : comp ≠ ['.', '.'] ∨ (k = 0 ∧ acc = [])
      ∨ (acc ≠ [] ∧ acc.headD [] = ['.', '.'])) :
    normComps k (comp :: rest) acc = normComps k rest (comp :: acc) := by
  simp only [normComps]
  rw [if_neg h1, if_pos h2]

theorem normComps_pop_nil (k : Nat) (comp : List Char) (rest : List (List Char))
    (h1 : ¬(comp = [] ∨ comp = ['.'])) (hdd : comp = ['.', '.']) (hk : k ≠ 0) :
    normComps k (comp :: rest) [] = normComps k rest [] := by
  simp only [normComps]
  rw [if_neg h1]
  split
  · rename_i hcond
    exfalso
    rcases hcond with h | h | h
    · exact h hdd
    · exact hk h.1
    · simp at h
  · rfl

theorem normComps_pop (k : Nat) (comp : List Char) (rest : List (List Char))
    (a : List Char) (t : List (List Char))
    (h1 : ¬(comp = [] ∨ comp = ['.']))
    (h2 : ¬(comp ≠ ['.', '.'] ∨ (k = 0 ∧ (a :: t : List (List Char)) = [])
      ∨ ((a :: t : List (List Char)) ≠ [] ∧ (a :: t).headD [] = ['.', '.']))) :
    normComps k (comp :: rest) (a :: t) = normComps k rest t := by
  simp only [normComps]
  rw [if_neg h1, if_neg h2]

theorem normComps_mem (k : Nat) :
    ∀ (comps acc : List (List Char)) (c : List Char),
      c ∈ normComps k comps acc → c ∈ comps ∨ c ∈ acc := by
  intro comps
  induction comps with
  | nil =>
    intro acc c hc
    rw [normComps_nil] at hc
    exact Or.inr (by simpa using hc)
  | cons comp rest ih =>
    intro acc c hc
    by_cases h1 : comp = [] ∨ comp = ['.']
    · rw [normComps_skip k comp rest acc h1] at hc
      rcases ih acc c hc with h | h
      · exact Or.inl (List.mem_cons_of_mem _ h)
      · exact Or.inr h
    · by_cases h2 : comp ≠ ['.', '.'] ∨ (k = 0 ∧ acc = [])
        ∨ (acc ≠ [] ∧ acc.headD [] = ['.', '.'])
      · rw [normComps_push k comp rest acc h1 h2] at hc
        rcases ih (comp :: acc) c hc with h | h
        · exact Or.inl (List.mem_cons_of_mem _ h)
        · rcases List.mem_cons.mp h with h | h
          · exact Or.inl (by simp [h])
          · exact Or.inr h
      · cases acc with
        | nil =>
          have hdd : comp = ['.', '.'] := by
            by_contra hcc
            exact h2 (Or.inl hcc)
          have hk0 : k ≠ 0 := fun h0 => h2 (Or.inr (Or.inl ⟨h0, rfl⟩))
          rw [normComps_pop_nil k comp rest h1 hdd hk0] at hc
          rcases ih [] c hc with h | h
          · exact Or.inl (List.mem_cons_of_mem _ h)
          · simp at h
        | cons a t =>
          rw [normComps_pop k comp rest a t h1 h2] at hc
          rcases ih t c hc with h | h
          · exact Or.inl (List.mem_cons_of_mem _ h)
          · exact Or.inr (List.mem_cons_of_mem _ h)

theorem normComps_good (k : Nat) :
    ∀ comps acc, (∀ c ∈ acc, c ≠ [] ∧ c ≠ ['.']) →
      ∀ c ∈ normComps k comps acc, c ≠ [] ∧ c ≠ ['.'] := by
  intro comps
  induction comps with
  | nil =>
    intro acc hacc c hc
    rw [normComps_nil] at hc
    exact hacc c (by simpa using hc)
  | cons comp rest ih =>
    intro acc hacc c hc
    by_cases h1 : comp = [] ∨ comp = ['.']
    · rw [normComps_skip k comp rest acc h1] at hc
      exact ih acc hacc c hc
    · by_cases h2 : comp ≠ ['.', '.'] ∨ (k = 0 ∧ acc = [])
        ∨ (acc ≠ [] ∧ acc.headD [] = ['.', '.'])
      · rw [normComps_push k comp rest acc h1 h2] at hc
        refine ih (comp :: acc) ?_ c hc
        intro d hd
        rcases List.mem_cons.mp hd with hd | hd
        · subst hd
          exact ⟨fun h => h1 (Or.inl h), fun h => h1 (Or.inr h)⟩
        · exact hacc d hd
      · cases acc with
        | nil =>
          have hdd : comp = ['.', '.'] := by
            by_contra hcc
            exact h2 (Or.inl hcc)
          have hk0 : k ≠ 0 := fun h0 => h2 (Or.inr (Or.inl ⟨h0, rfl⟩))
          rw [normComps_pop_nil k comp rest h1 hdd hk0] at hc
          exact ih [] (by simp) c hc
        | cons a t =>
          rw [normComps_pop k comp rest a t h1 h2] at hc
          exact ih t (fun d hd => hacc d (List.mem_cons_of_mem _ hd)) c hc

theorem normComps_noDD (k : Nat) (hk : k ≠ 0) :
    ∀ comps acc, (∀ c ∈ acc, c ≠ ['.', '.']) →
      ∀ c ∈ normComps k comps acc, c ≠ ['.', '.'] := by
  intro comps
  induction comps with
  | nil =>
    intro acc hacc c hc
    rw [normComps_nil] at hc
    exact hacc c (by simpa using hc)
  | cons comp rest ih =>
    intro acc hacc c hc
    by_cases h1 : comp = [] ∨ comp = ['.']
    · rw [normComps_skip k comp rest acc h1] at hc
      exact ih acc hacc c hc
    · by_cases h2 : comp ≠ ['.', '.'] ∨ (k = 0 ∧ acc = [])
        ∨ (acc ≠ [] ∧ acc.headD [] = ['.', '.'])
      · rw [normComps_push k comp rest acc h1 h2] at hc
        refine ih (comp :: acc) ?_ c hc
        intro d hd
        rcases List.mem_cons.mp hd with hd | hd
        · subst hd
          rcases h2 with h | h | h
          · exact h
          · exact absurd h.1 hk
          · cases acc with
            | nil => exact absurd rfl h.1
            | cons a t =>
              exact absurd (by simpa using h.2) (hacc a (by simp))
        · exact hacc d hd
      · cases acc with
        | nil =>
          have hdd : comp = ['.', '.'] := by
            by_contra hcc
            exact h2 (Or.inl hcc)
          have hk0 : k ≠ 0 := fun h0 => h2 (Or.inr (Or.inl ⟨h0, rfl⟩))
          rw [normComps_pop_nil k comp rest h1 hdd hk0] at hc
          exact ih [] (by simp) c hc
        | cons a t =>
          rw [normComps_pop k comp rest a t h1 h2] at hc
          exact ih t (fun d hd => hacc d (List.mem_cons_of_mem _ hd)) c hc

theorem normComps_pushes (k : Nat) :
    ∀ comps acc, (∀ c ∈ comps, c ≠ [] ∧ c ≠ ['.'] ∧ c ≠ ['.', '.']) →
      normComps k comps acc = acc.reverse ++ comps := by
  intro comps
  induction comps with
  | nil => intro acc _; simp [normComps_nil]
  | cons comp rest ih =>
    intro acc hcomps
    have hg := hcomps comp (by simp)
    rw [normComps_push k comp rest acc (by push_neg; exact ⟨hg.1, hg.2.1⟩)
      (Or.inl hg.2.2)]
    rw [ih (comp :: acc) (fun c hc => hcomps c (List.mem_cons_of_mem _ hc))]
    simp

theorem accDots_nil : accDots [] := ⟨[], 0, by simp, by simp⟩

theorem normComps_zero_dtc :
    ∀ comps acc, accDots acc →
      ∃ m ds, normComps 0 comps acc = List.replicate m ['.', '.'] ++ ds
        ∧ ['.', '.'] ∉ ds := by
  intro comps
  induction comps with
  | nil =>
    intro acc hacc
    rcases hacc with ⟨ds, m, hacc, hds⟩
    refine ⟨m, ds, ?_, hds⟩
    rw [normComps_nil, hacc]
    simp [List.reverse_append, List.reverse_replicate]
  | cons comp rest ih =>
    intro acc hacc
    by_cases h1 : comp = [] ∨ comp = ['.']
    · rw [normComps_skip 0 comp rest acc h1]
      exact ih acc hacc
    · by_cases h2 : comp ≠ ['.', '.'] ∨ (0 = 0 ∧ acc = [])
        ∨ (acc ≠ [] ∧ acc.headD [] = ['.', '.'])
      · rw [normComps_push 0 comp rest acc h1 h2]
        by_cases hdd : comp = ['.', '.']
        · subst hdd
          rcases h2 with h | h | h
          · exact absurd rfl h
          · refine ih _ ⟨[], 1, by simp [h.2], by simp⟩
          · rcases hacc with ⟨ds, m, hacc2, hds⟩
            rcases hrev : ds.reverse with _ | ⟨b, bs⟩
            · have hds0 : ds = [] := by
                have := congrArg List.reverse hrev
                simpa using this
              subst hds0
              refine ih _ ⟨[], m + 1, ?_, by simp⟩
              rw [hacc2]
              simp [List.replicate_succ]
            · exfalso
              have hb : b ∈ ds := by
                have : b ∈ ds.reverse := by simp [hrev]
                simpa using this
              have hbdd : b = ['.', '.'] := by
                have hhead := h.2
                rw [hacc2, hrev] at hhead
                simpa using hhead
              exact hds (hbdd ▸ hb)
        · rcases hacc with ⟨ds, m, hacc2, hds⟩
          refine ih _ ⟨ds ++ [comp], m, ?_, ?_⟩
          · simp [hacc2]
          · intro hmem
            rcases List.mem_append.mp hmem with h | h
            · exact hds h
            · have hcm : (['.', '.'] : List Char) = comp := by simpa using h
              exact hdd hcm.symm
      · have hcomp : comp = ['.', '.'] := by
          by_contra hcc
          exact h2 (Or.inl hcc)
        have haccne : acc ≠ [] := by
          intro he
          exact h2 (Or.inr (Or.inl ⟨rfl, he⟩))
        have hheadne : acc.headD [] ≠ ['.', '.'] := by
          intro hh
          exact h2 (Or.inr (Or.inr ⟨haccne, hh⟩))
        rcases hacc with ⟨ds, m, hacc2, hds⟩
        cases acc with
        | nil => exact absurd rfl haccne
        | cons a t =>
          rw [normComps_pop 0 comp rest a t h1 h2]
          rcases hrev : ds.reverse with _ | ⟨b, bs⟩
          · exfalso
            have hds0 : ds = [] := by
              have := congrArg List.reverse hrev
              simpa using this
            subst hds0
            simp only [List.reverse_nil, List.nil_append] at hacc2
            have ha : a = ['.', '.'] := by
              cases m with
              | zero => simp at hacc2
              | succ m' =>
                rw [List.replicate_succ] at hacc2
                exact ((List.cons.injEq _ _ _ _).mp hacc2).1
            exact hheadne (by simpa using ha)
          · have hab : a = b ∧ t = bs ++ List.replicate m ['.', '.'] := by
              rw [hrev] at hacc2
              simp only [List.cons_append] at hacc2
              exact ⟨((List.cons.injEq _ _ _ _).mp hacc2).1,
                ((List.cons.injEq _ _ _ _).mp hacc2).2⟩
            refine ih t ⟨bs.reverse, m, ?_, ?_⟩
            · simpa using hab.2
            · intro hmem
              have hds_eq : ds = bs.reverse ++ [b] := by
                have := congrArg List.reverse hrev
                simpa using this
              exact hds (hds_eq ▸ List.mem_append.mpr (Or.inl hmem))

/-! ## Lemmas about intercalate and the shape of normpath output -/

theorem intercalate_single (s : Char) (p : List Char) :
    List.intercalate [s] [p] = p := by
  simp [List.intercalate, List.intersperse]

theorem intercalate_cons_cons (s : Char) (p q : List Char) (qs : List (List Char)) :
    List.intercalate [s] (p :: q :: qs) = p ++ s :: List.intercalate [s] (q :: qs) := by
  simp [List.intercalate, List.intersperse]

theorem intercalate_head (s : Char) (p : List Char) (ps : List (List Char)) :
    ∃ w, List.intercalate [s] (p :: ps) = p ++ w := by
  cases ps with
  | nil => exact ⟨[], by simp [intercalate_single]⟩
  | cons q qs => exact ⟨s :: List.intercalate [s] (q :: qs), intercalate_cons_cons s p q qs⟩

theorem intercalate_ne_nil (s : Char) (p : List Char) (ps : List (List Char))
    (hp : p ≠ []) : List.intercalate [s] (p :: ps) ≠ [] := by
  rcases intercalate_head s p ps with ⟨w, hw⟩
  rw [hw]
  intro h
  exact hp (List.append_eq_nil.mp h).1

theorem take_one_append (p w : List Char) (hp : p ≠ []) :
    (p ++ w).take 1 = p.take 1 := by
  cases p with
  | nil => exact absurd rfl hp
  | cons c cs => simp

theorem normSlashes_le (l : List Char) : normSlashes l ≤ 2 := by
  unfold normSlashes
  split
  · split
    · omega
    · omega
  · omega

theorem normSlashes_zero (l : List Char) (h : l.take 1 ≠ ['/']) : normSlashes l = 0 := by
  unfold normSlashes
  rw [if_neg h]

theorem normSlashes_one (l : List Char) (h1 : l.take 1 = ['/'])
    (h2 : l.take 2 ≠ ['/', '/']) : normSlashes l = 1 := by
  unfold normSlashes
  rw [if_pos h1, if_neg (fun hc => h2 hc.1)]

theorem posixNormpath_shape (t : List Char) (ht : t ≠ []) :
    posixNormpath t = ['.']
    ∨ ∃ cs : List (List Char),
        posixNormpath t
            = List.replicate (normSlashes t) '/' ++ List.intercalate ['/'] cs
        ∧ (1 ≤ normSlashes t ∨ cs ≠ [])
        ∧ (∀ c ∈ cs, (c ≠ [] ∧ c ≠ ['.']) ∧ c ∈ splitOnChar '/' t)
        ∧ (normSlashes t = 0 →
            ∃ m ds, cs = List.replicate m ['.', '.'] ++ ds ∧ ['.', '.'] ∉ ds)
        ∧ (normSlashes t ≠ 0 → ['.', '.'] ∉ cs) := by
  unfold posixNormpath
  rw [if_neg ht]
  by_cases hp : List.replicate (normSlashes t) '/'
      ++ List.intercalate ['/'] (normComps (normSlashes t) (splitOnChar '/' t) []) = []
  · rw [if_pos hp]
    exact Or.inl rfl
  · rw [if_neg hp]
    refine Or.inr ⟨normComps (normSlashes t) (splitOnChar '/' t) [], rfl, ?_, ?_, ?_, ?_⟩
    · by_cases hk : normSlashes t = 0
      · refine Or.inr (fun hcs => hp ?_)
        rw [hcs, hk]
        simp [List.intercalate]
      · exact Or.inl (by omega)
    · intro c hc
      refine ⟨normComps_good _ _ [] (by simp) c hc, ?_⟩
      rcases normComps_mem _ _ [] c hc with h | h
      · exact h
      · simp at h
    · intro hk
      rw [hk]
      exact normComps_zero_dtc (splitOnChar '/' t) [] accDots_nil
    · intro hk hdd
      exact normComps_noDD (normSlashes t) hk (splitOnChar '/' t) [] (by simp)
        ['.', '.'] hdd rfl

theorem replicate_append_cons (m : Nat) (x : List Char) (acc : List (List Char)) :
    List.replicate m x ++ x :: acc = x :: (List.replicate m x ++ acc) := by
  induction m with
  | zero => simp
  | succ n ih => simp [List.replicate_succ, ih]

theorem normComps_zero_dots (m : Nat) :
    ∀ (rest acc : List (List Char)), (∀ c ∈ acc, c = ['.', '.']) →
      normComps 0 (List.replicate m ['.', '.'] ++ rest) acc
        = normComps 0 rest (List.replicate m ['.', '.'] ++ acc) := by
  induction m with
  | zero => intro rest acc _; simp
  | succ m' ih =>
    intro rest acc hacc
    have hcond : (['.', '.'] : List Char) ≠ ['.', '.'] ∨ (0 = 0 ∧ acc = [])
        ∨ (acc ≠ [] ∧ acc.headD [] = ['.', '.']) := by
      cases acc with
      | nil => exact Or.inr (Or.inl ⟨rfl, rfl⟩)
      | cons a u => exact Or.inr (Or.inr ⟨by simp, by simpa using hacc a (by simp)⟩)
    rw [List.replicate_succ, List.cons_append,
      normComps_push 0 ['.', '.'] _ acc (by simp) hcond,
      ih rest (['.', '.'] :: acc) (fun c hc => by
        rcases List.mem_cons.mp hc with h | h
        · exact h
        · exact hacc c h)]
    congr 1
    exact replicate_append_cons m' _ acc

theorem posixNormpath_fixed_abs (cs : List (List Char)) (hne : cs ≠ [])
    (hgood : ∀ c ∈ cs, c ≠ [] ∧ c ≠ ['.'] ∧ c ≠ ['.', '.'] ∧ '/' ∉ c) :
    posixNormpath ('/' :: List.intercalate ['/'] cs)
      = '/' :: List.intercalate ['/'] cs := by
  cases cs with
  | nil => exact absurd rfl hne
  | cons p ps =>
    have hp := hgood p (by simp)
    have hy : ('/' :: List.intercalate ['/'] (p :: ps)) ≠ [] := by simp
    have htake1 : ('/' :: List.intercalate ['/'] (p :: ps)).take 1 = ['/'] := by simp
    have htake2 : ('/' :: List.intercalate ['/'] (p :: ps)).take 2 ≠ ['/', '/'] := by
      rcases intercalate_head '/' p ps with ⟨w, hw⟩
      rw [hw]
      cases p with
      | nil => exact absurd rfl hp.1
      | cons c cc =>
        have hc : c ≠ '/' := fun h => hp.2.2.2 (by simp [h])
        simp only [List.cons_append]
        intro hcontra
        exact hc (by simpa using hcontra)
    have hns : normSlashes ('/' :: List.intercalate ['/'] (p :: ps)) = 1 :=
      normSlashes_one _ htake1 htake2
    have hsplit : splitOnChar '/' ('/' :: List.intercalate ['/'] (p :: ps))
        = [] :: p :: ps := by
      rw [splitOnChar_cons_sep]
      rw [splitOnChar_intercalate '/' (p :: ps) (by simp)
        (fun q hq => (hgood q hq).2.2.2)]
    have hnc : normComps 1 ([] :: p :: ps) [] = p :: ps := by
      rw [normComps_skip 1 [] (p :: ps) [] (Or.inl rfl)]
      exact normComps_pushes 1 (p :: ps) []
        (fun c hc => ⟨(hgood c hc).1, (hgood c hc).2.1, (hgood c hc).2.2.1⟩)
    unfold posixNormpath
    rw [if_neg hy, hns, hsplit, hnc]
    simp

theorem posixNormpath_fixed_rel (m : Nat) (ds : List (List Char))
    (hne : List.replicate m ['.', '.'] ++ ds ≠ [])
    (hgood : ∀ c ∈ ds, c ≠ [] ∧ c ≠ ['.'] ∧ c ≠ ['.', '.'] ∧ '/' ∉ c) :
    posixNormpath (List.intercalate ['/'] (List.replicate m ['.', '.'] ++ ds))
      = List.intercalate ['/'] (List.replicate m ['.', '.'] ++ ds) := by
  have hfree : ∀ q ∈ List.replicate m ['.', '.'] ++ ds, '/' ∉ q := by
    intro q hq
    rcases List.mem_append.mp hq with h | h
    · rw [List.eq_of_mem_replicate h]
      simp
    · exact (hgood q h).2.2.2
  rcases hcs : List.replicate m ['.', '.'] ++ ds with _ | ⟨p, ps⟩
  · exact absurd hcs hne
  · have hphead : p ≠ [] ∧ '/' ∉ p := by
      have hpmem : p ∈ List.replicate m ['.', '.'] ++ ds := by rw [hcs]; simp
      rcases List.mem_append.mp hpmem with h | h
      · rw [List.eq_of_mem_replicate h]
        exact ⟨by simp, by simp⟩
      · exact ⟨(hgood p h).1, (hgood p h).2.2.2⟩
    have hyne : List.intercalate ['/'] (p :: ps) ≠ [] :=
      intercalate_ne_nil '/' p ps hphead.1
    have htake1 : (List.intercalate ['/'] (p :: ps)).take 1 ≠ ['/'] := by
      rcases intercalate_head '/' p ps with ⟨w, hw⟩
      rw [hw, take_one_append p w hphead.1]
      cases p with
      | nil => exact absurd rfl hphead.1
      | cons c cc =>
        have hc : c ≠ '/' := fun h => hphead.2 (by simp [h])
        simp only [List.take]
        intro hcontra
        exact hc (by simpa using hcontra)
    have hns : normSlashes (List.intercalate ['/'] (p :: ps)) = 0 :=
      normSlashes_zero _ htake1
    have hsplit : splitOnChar '/' (List.intercalate ['/'] (p :: ps)) = p :: ps := by
      rw [splitOnChar_intercalate '/' (p :: ps) (by simp)
        (fun q hq => hfree q (hcs ▸ hq))]
    have hnc : normComps 0 (p :: ps) [] = p :: ps := by
      rw [← hcs, normComps_zero_dots m ds [] (by simp), List.append_nil,
        normComps_pushes 0 ds (List.replicate m ['.', '.'])
          (fun c hc => ⟨(hgood c hc).1, (hgood c hc).2.1, (hgood c hc).2.2.1⟩),
        List.reverse_replicate]
    unfold posixNormpath
    rw [if_neg hyne, hns, hsplit, hnc]
    simp [hyne]

/-! ## Classification of the errors each validation stage can raise -/

theorem validatePathtypeStr_error (a : Bool) (s : List Char) (e : PvError) :
    validatePathtypeStr a s = .error e → e = .validation .nullName := by
  unfold validatePathtypeStr
  split
  · intro h
    exact (Except.error.inj h).symm
  · split
    · intro h
      exact (Except.error.inj h).symm
    · intro h
      simp at h

theorem validatePathtypeStr_linux (s : List Char) :
    validatePathtypeStr true s
      = if s = [] then .error (.validation .nullName) else .ok () := by
  by_cases h : s = [] <;> simp [validatePathtypeStr, h]

theorem validateAbspath_error (cfg : BaseCfg) (v : List Char) (e : PvError) :
    FilePathValidator.validateAbspath cfg v = .error e →
      e = .validation .malformedAbsPath := by
  intro h
  unfold FilePathValidator.validateAbspath at h
  dsimp only at h
  split at h
  · simp at h
  · split at h
    · exact (Except.error.inj h).symm
    · split at h
      · exact (Except.error.inj h).symm
      · simp at h

theorem validateReservedKeywords_error (ks : List (List Char)) (cr : Bool)
    (n : List Char) (e : PvError) :
    validateReservedKeywords ks cr n = .error e → e = .validation .reservedName := by
  unfold validateReservedKeywords
  split
  · intro h; simp at h
  · split
    · intro h
      exact (Except.error.inj h).symm
    · intro h
      simp at h

theorem checkEntries_error (ks : List (List Char)) (cr : Bool) :
    ∀ (es : List (List Char)) (e : PvError),
      checkEntries ks cr es = .error e → e = .validation .reservedName := by
  intro es
  induction es with
  | nil => intro e h; simp [checkEntries] at h
  | cons a rest ih =>
    intro e h
    unfold checkEntries at h
    split at h
    · exact ih e h
    · cases hval : validateReservedKeywords ks cr a with
      | error e2 =>
        rw [hval] at h
        exact (Except.error.inj h) ▸ validateReservedKeywords_error ks cr a e2 hval
      | ok u =>
        rw [hval] at h
        exact ih e h

theorem unixFilepathCheck_error (tl : List Char) (e : PvError) :
    unixFilepathCheck tl = .error e → e = .validation .invalidCharacter := by
  unfold unixFilepathCheck
  split
  · intro h
    exact (Except.error.inj h).symm
  · intro h
    simp at h

theorem winFilepathCheck_error (tl : List Char) (e : PvError) :
    winFilepathCheck tl = .error e →
      e = .validation .invalidCharacter ∨ e = .validation .reservedName := by
  intro h
  unfold winFilepathCheck at h
  dsimp only at h
  split at h
  · exact Or.inl (Except.error.inj h).symm
  · split at h
    · exact Or.inr (Except.error.inj h).symm
    · simp at h

/-- A validation failure with reason NULL_NAME can only come from the initial
type/null check: every later stage raises a different reason. -/
theorem validate_null_imp (cfg : BaseCfg) (v : List Char)
    (h : FilePathValidator.validate cfg v = .error (.validation .nullName)) :
    validatePathtypeStr (!isWindowsIncl cfg.pf) v = .error (.validation .nullName) := by
  unfold FilePathValidator.validate at h
  cases hpt : validatePathtypeStr (!isWindowsIncl cfg.pf) v with
  | error e =>
    rw [validatePathtypeStr_error _ _ _ hpt]
  | ok u =>
    exfalso
    cases u
    rw [hpt] at h
    dsimp only at h
    cases hab : FilePathValidator.validateAbspath cfg v with
    | error e2 =>
      rw [hab] at h
      dsimp only at h
      rw [validateAbspath_error cfg v e2 hab] at h
      simp at h
    | ok u2 =>
      cases u2
      rw [hab] at h
      dsimp only at h
      split at h
      · simp at h
      · split at h
        · simp at h
        · split at h
          · simp at h
          · cases hrk : validateReservedKeywords
                (filePathReservedKeywords cfg.pf) cfg.checkReserved
                ((splitDriveFor cfg.pf v).2) with
            | error e3 =>
              rw [hrk] at h
              dsimp only at h
              rw [validateReservedKeywords_error _ _ _ _ hrk] at h
              simp at h
            | ok u3 =>
              cases u3
              rw [hrk] at h
              dsimp only at h
              cases hce : checkEntries (fnameReservedKeywords cfg.pf)
                  cfg.checkReserved
                  (splitOnChar '/' (bsToSlash (splitDriveFor cfg.pf v).2)) with
              | error e4 =>
                rw [hce] at h
                dsimp only at h
                rw [checkEntries_error _ _ _ _ hce] at h
                simp at h
              | ok u4 =>
                cases u4
                rw [hce] at h
                dsimp only at h
                split at h
                · rcases winFilepathCheck_error _ _ h with h5 | h5 <;> simp at h5
                · have := unixFilepathCheck_error _ _ h
                  simp at this

/-! ## Equations for the Linux sanitizer pipeline -/

theorem fnameSanitize_linux (e : List Char) :
    fnameSanitize .linux true (.returnValue []) [] e = .ok (fnameL e) := by
  by_cases he : e = []
  · subst he
    rfl
  · unfold fnameSanitize
    rw [if_neg he]
    have hres : fnameReservedKeywords .linux = [] := rfl
    simp only [hres, List.not_mem_nil, and_false, if_false]
    by_cases ht : subChars (isInvalidFilenameCharFor .linux) [] e = []
    · rw [if_pos ht]
      have : fnameL e = [] := ht
      rw [this]
      rfl
    · rw [if_neg ht]
      rfl

theorem sanitizeEntriesAux_linux :
    ∀ (es acc : List (List Char)),
      sanitizeEntriesAux .linux true (.returnValue []) [] es acc
        = .ok (procL es acc) := by
  intro es
  induction es with
  | nil => intro acc; rfl
  | cons e rest ih =>
    intro acc
    unfold sanitizeEntriesAux procL
    by_cases hn : e ∈ ntfsReservedNames
    · rw [if_pos hn, if_pos hn]
      exact ih _
    · rw [if_neg hn, if_neg hn, fnameSanitize_linux e]
      dsimp only
      by_cases hf : fnameL e = []
      · rw [if_pos hf, if_pos hf]
        by_cases ha : acc = []
        · rw [if_pos ha, if_pos ha]
          exact ih _
        · rw [if_neg ha, if_neg ha]
          exact ih _
      · rw [if_neg hf, if_neg hf]
        exact ih _

theorem assemble_linux (x : List Char) :
    FilePathSanitizer.assemble (defaultSanitizerCfg .linux) [] x
      = .ok (assembleL x) := by
  have hw : isWindowsIncl Platform.linux = false := rfl
  by_cases ht : subChars isInvalidPathChar [] x = []
  · simp [FilePathSanitizer.assemble, assembleL, defaultSanitizerCfg, defaultCfg,
      splitDriveFor, hw, posixSplitdrive, pathSep, sanitizeEntriesAux_linux, ht]
  · simp [FilePathSanitizer.assemble, assembleL, defaultSanitizerCfg, defaultCfg,
      splitDriveFor, hw, posixSplitdrive, pathSep, sanitizeEntriesAux_linux, ht]

theorem sanitizeLinux_eq (x : List Char) :
    FilePathSanitizer.sanitize (defaultSanitizerCfg .linux) [] x
      = .ok (assembleL x) := by
  by_cases hx : x = []
  · subst hx
    rfl
  · unfold FilePathSanitizer.sanitize
    have hpt : validatePathtypeStr
        (!isWindowsIncl (defaultSanitizerCfg Platform.linux).base.pf) x = .ok () := by
      have harg : (!isWindowsIncl (defaultSanitizerCfg Platform.linux).base.pf)
          = true := rfl
      rw [harg, validatePathtypeStr_linux, if_neg hx]
    rw [hpt]
    dsimp only
    rw [assemble_linux x]
    dsimp only
    cases hv : FilePathValidator.validate (defaultSanitizerCfg Platform.linux).base
        (assembleL x) with
    | ok u =>
      cases u
      rfl
    | error e =>
      cases e with
      | typeMismatch => rfl
      | validation r =>
        cases r with
        | nullName =>
          have hnil : assembleL x = [] := by
            have hnull := validate_null_imp _ _ hv
            have harg : (!isWindowsIncl
                ((defaultSanitizerCfg Platform.linux).base.pf)) = true := rfl
            rw [harg, validatePathtypeStr_linux] at hnull
            by_contra hne
            rw [if_neg hne] at hnull
            simp at hnull
          rw [hnil]
          rfl
        | invalidCharacter => rfl
        | invalidLength => rfl
        | reservedName => rfl
        | malformedAbsPath => rfl

/-! ## Small facts about the reserved tables and character classes -/

theorem nil_not_ntfs : ([] : List Char) ∉ ntfsReservedNames := by decide

theorem dotdot_not_ntfs : (['.', '.'] : List Char) ∉ ntfsReservedNames := by decide

theorem ntfs_no_underscore (l : List Char) : l ++ ['_'] ∉ ntfsReservedNames := by
  intro h
  have hlast : (l ++ ['_']).getLast? = some '_' := by
    simp [List.getLast?_concat]
  have : ∀ n ∈ ntfsReservedNames, n.getLast? ≠ some '_' := by decide
  exact this _ h hlast

theorem invPath_of_invFilename (ch : Char) (h : isInvalidFilenameChar ch = false) :
    isInvalidPathChar ch = false := by
  unfold isInvalidFilenameChar at h
  exact (Bool.or_eq_false_iff.mp h).1

theorem invFilename_of_invPath (ch : Char) (h1 : isInvalidPathChar ch = false)
    (h2 : ch ≠ '/') : isInvalidFilenameChar ch = false := by
  unfold isInvalidFilenameChar
  rw [h1]
  simpa using h2

theorem cleanComp_no_slash (c : List Char) (h : cleanComp c) : '/' ∉ c := by
  intro hm
  have := h.2.2.2.2.1 '/' hm
  simp [isInvalidFilenameChar] at this

theorem fnameL_clean (c : List Char) (h : ∀ ch ∈ c, isInvalidFilenameChar ch = false) :
    fnameL c = c :=
  subChars_nil_of_clean _ c h

theorem map_procC_self (cs : List (List Char)) (h : ∀ c ∈ cs, cleanComp c) :
    cs.map procC = cs := by
  induction cs with
  | nil => rfl
  | cons c rest ih =>
    have hc := h c (by simp)
    simp only [List.map_cons]
    rw [ih (fun d hd => h d (List.mem_cons_of_mem _ hd))]
    unfold procC
    rw [if_neg hc.2.2.2.2.2, fnameL_clean c hc.2.2.2.2.1]

/-! ## Equations and invariants of the entry-processing loop -/

theorem fnameL_nil : fnameL [] = [] := rfl

theorem procC_ntfs (e : List Char) (h : e ∈ ntfsReservedNames) :
    procC e = e ++ ['_'] := by
  unfold procC
  rw [if_pos h]

theorem procC_not_ntfs (e : List Char) (h : e ∉ ntfsReservedNames) :
    procC e = fnameL e := by
  unfold procC
  rw [if_neg h]

theorem procL_maps :
    ∀ (cs acc : List (List Char)), (∀ c ∈ cs, fnameL c ≠ []) →
      procL cs acc = acc.reverse ++ cs.map procC := by
  intro cs
  induction cs with
  | nil => intro acc _; simp [procL]
  | cons e rest ih =>
    intro acc h
    unfold procL
    by_cases hn : e ∈ ntfsReservedNames
    · rw [if_pos hn, ih _ (fun c hc => h c (List.mem_cons_of_mem _ hc)),
        List.map_cons, procC_ntfs e hn]
      simp
    · rw [if_neg hn, if_neg (h e (by simp)),
        ih _ (fun c hc => h c (List.mem_cons_of_mem _ hc)),
        List.map_cons, procC_not_ntfs e hn]
      simp

theorem procL_nil_head (rest : List (List Char)) :
    procL ([] :: rest) [] = procL rest [[]] := by
  conv_lhs => unfold procL
  rw [if_neg nil_not_ntfs, if_pos fnameL_nil, if_pos rfl]

theorem procL_nil_skip (rest acc : List (List Char)) (h : acc ≠ []) :
    procL ([] :: rest) acc = procL rest acc := by
  conv_lhs => unfold procL
  rw [if_neg nil_not_ntfs, if_pos fnameL_nil, if_neg h]

theorem fnameL_dotdot : fnameL ['.', '.'] = ['.', '.'] := rfl

theorem procC_dotdot : procC ['.', '.'] = ['.', '.'] := by
  rw [procC_not_ntfs _ dotdot_not_ntfs, fnameL_dotdot]

theorem cleanComp_procC (d : List Char) (h1 : d ≠ []) (h2 : d ≠ ['.'])
    (h3 : d ≠ ['.', '.']) (h4 : '\\' ∉ d)
    (h5 : ∀ ch ∈ d, isInvalidFilenameChar ch = false) :
    cleanComp (procC d) := by
  by_cases hn : d ∈ ntfsReservedNames
  · rw [procC_ntfs d hn]
    refine ⟨by simp, ?_, ?_, ?_, ?_, ntfs_no_underscore d⟩
    · intro hcontra
      have hlen : (d ++ ['_']).length = 1 := by rw [hcontra]; rfl
      have : d.length + 1 = 1 := by simpa using hlen
      exact h1 (List.length_eq_zero.mp (by omega))
    · intro hcontra
      have hlast : (d ++ ['_']).getLast? = some '_' := by simp [List.getLast?_concat]
      rw [hcontra] at hlast
      simp at hlast
    · intro hm
      rcases List.mem_append.mp hm with hm | hm
      · exact h4 hm
      · simp at hm
    · intro ch hch
      rcases List.mem_append.mp hch with hch | hch
      · exact h5 ch hch
      · have : ch = '_' := by simpa using hch
        subst this
        rfl
  · rw [procC_not_ntfs d hn, fnameL_clean d h5]
    exact ⟨h1, h2, h3, h4, h5, hn⟩

/-! ## The canonical form is a fixed point of the Linux sanitizer -/

theorem assembleL_canonical_fixed (y : List Char) (h : canonicalOut y) :
    assembleL y = y := by
  rcases h with h | h | ⟨cs, hy, hne, hclean⟩ | ⟨m, ds, hy, hne, hclean⟩
  · subst h
    rfl
  · subst h
    rfl
  · subst hy
    have hchars : ∀ ch ∈ ('/' :: List.intercalate ['/'] cs),
        isInvalidPathChar ch = false := by
      intro ch hch
      rcases List.mem_cons.mp hch with hch | hch
      · subst hch
        rfl
      · rcases mem_intercalate_sep '/' cs ch hch with hch | ⟨p, hp, hchp⟩
        · subst hch
          rfl
        · exact invPath_of_invFilename ch ((hclean p hp).2.2.2.2.1 ch hchp)
    have hsub : subChars isInvalidPathChar [] ('/' :: List.intercalate ['/'] cs)
        = '/' :: List.intercalate ['/'] cs :=
      subChars_nil_of_clean _ _ hchars
    have hgood : ∀ c ∈ cs, c ≠ [] ∧ c ≠ ['.'] ∧ c ≠ ['.', '.'] ∧ '/' ∉ c :=
      fun c hc => ⟨(hclean c hc).1, (hclean c hc).2.1, (hclean c hc).2.2.1,
        cleanComp_no_slash c (hclean c hc)⟩
    have hnorm := posixNormpath_fixed_abs cs hne hgood
    have hbs : bsToSlash ('/' :: List.intercalate ['/'] cs)
        = '/' :: List.intercalate ['/'] cs := by
      apply bsToSlash_eq_self
      intro hm
      rcases List.mem_cons.mp hm with hm | hm
      · simp at hm
      · rcases mem_intercalate_sep '/' cs _ hm with hm | ⟨p, hp, hmp⟩
        · simp at hm
        · exact (hclean p hp).2.2.2.1 hmp
    have hsplit : splitOnChar '/' ('/' :: List.intercalate ['/'] cs) = [] :: cs := by
      rw [splitOnChar_cons_sep, splitOnChar_intercalate '/' cs hne
        (fun p hp => cleanComp_no_slash p (hclean p hp))]
    unfold assembleL
    rw [hsub, if_neg (by simp), hnorm, hbs, hsplit, procL_nil_head,
      procL_maps cs [[]] (fun c hc => by
        rw [fnameL_clean c ((hclean c hc).2.2.2.2.1)]
        exact (hclean c hc).1),
      map_procC_self cs hclean]
    cases cs with
    | nil => exact absurd rfl hne
    | cons p ps =>
      rw [show ([[]] : List (List Char)).reverse ++ p :: ps = [] :: p :: ps from rfl,
        intercalate_cons_cons]
      simp
  · subst hy
    have hchars : ∀ ch ∈ List.intercalate ['/'] (List.replicate m ['.', '.'] ++ ds),
        isInvalidPathChar ch = false := by
      intro ch hch
      rcases mem_intercalate_sep '/' _ ch hch with hch | ⟨p, hp, hchp⟩
      · subst hch
        rfl
      · rcases List.mem_append.mp hp with hp | hp
        · rw [List.eq_of_mem_replicate hp] at hchp
          have hd : ch = '.' := by
            rcases List.mem_cons.mp hchp with h | h
            · exact h
            · simpa using h
          subst hd
          rfl
        · exact invPath_of_invFilename ch ((hclean p hp).2.2.2.2.1 ch hchp)
    have hsub : subChars isInvalidPathChar []
        (List.intercalate ['/'] (List.replicate m ['.', '.'] ++ ds))
        = List.intercalate ['/'] (List.replicate m ['.', '.'] ++ ds) :=
      subChars_nil_of_clean _ _ hchars
    have hgood : ∀ c ∈ ds, c ≠ [] ∧ c ≠ ['.'] ∧ c ≠ ['.', '.'] ∧ '/' ∉ c :=
      fun c hc => ⟨(hclean c hc).1, (hclean c hc).2.1, (hclean c hc).2.2.1,
        cleanComp_no_slash c (hclean c hc)⟩
    have hnorm := posixNormpath_fixed_rel m ds hne hgood
    have hfree : ∀ p ∈ List.replicate m ['.', '.'] ++ ds, '/' ∉ p := by
      intro p hp
      rcases List.mem_append.mp hp with hp | hp
      · rw [List.eq_of_mem_replicate hp]
        simp
      · exact cleanComp_no_slash p (hclean p hp)
    have hbs : bsToSlash (List.intercalate ['/'] (List.replicate m ['.', '.'] ++ ds))
        = List.intercalate ['/'] (List.replicate m ['.', '.'] ++ ds) := by
      apply bsToSlash_eq_self
      intro hm
      rcases mem_intercalate_sep '/' _ _ hm with hm | ⟨p, hp, hmp⟩
      · simp at hm
      · rcases List.mem_append.mp hp with hp | hp
        · rw [List.eq_of_mem_replicate hp] at hmp
          rcases List.mem_cons.mp hmp with h | h
          · simp at h
          · simp at h
        · exact (hclean p hp).2.2.2.1 hmp
    have hsplit : splitOnChar '/'
        (List.intercalate ['/'] (List.replicate m ['.', '.'] ++ ds))
        = List.replicate m ['.', '.'] ++ ds :=
      splitOnChar_intercalate '/' _ hne hfree
    have hysne : List.intercalate ['/'] (List.replicate m ['.', '.'] ++ ds) ≠ [] := by
      rcases hcs : List.replicate m ['.', '.'] ++ ds with _ | ⟨p, ps⟩
      · exact absurd hcs hne
      · have hpne : p ≠ [] := by
          have hpmem : p ∈ List.replicate m ['.', '.'] ++ ds := by rw [hcs]; simp
          rcases List.mem_append.mp hpmem with h | h
          · rw [List.eq_of_mem_replicate h]
            simp
          · exact (hclean p h).1
        exact intercalate_ne_nil '/' p ps hpne
    unfold assembleL
    rw [hsub, if_neg hysne, hnorm, hbs, hsplit,
      procL_maps _ [] (fun c hc => by
        rcases List.mem_append.mp hc with hc | hc
        · rw [List.eq_of_mem_replicate hc, fnameL_dotdot]
          simp
        · rw [fnameL_clean c ((hclean c hc).2.2.2.2.1)]
          exact (hclean c hc).1),
      List.map_append, List.map_replicate, procC_dotdot,
      map_procC_self ds hclean]
    simp

theorem assembleL_canonical (x : List Char) (hb : '\\' ∉ x) :
    canonicalOut (assembleL x) := by
  by_cases ht : subChars isInvalidPathChar [] x = []
  · left
    unfold assembleL
    rw [ht]
    rfl
  · have htch := mem_subChars_nil isInvalidPathChar x
    rcases posixNormpath_shape _ ht with hdot | ⟨cs, hn, hk1, hcomps, hdtc, hnodd⟩
    · right
      left
      unfold assembleL
      rw [if_neg ht, hdot]
      rfl
    · have hcompfacts : ∀ c ∈ cs, c ≠ [] ∧ c ≠ ['.'] ∧ '/' ∉ c ∧ '\\' ∉ c
          ∧ (∀ ch ∈ c, isInvalidFilenameChar ch = false) := by
        intro c hc
        have h1 := (hcomps c hc).1
        have h2 := (hcomps c hc).2
        have hslash : '/' ∉ c := mem_splitOnChar_not_sep '/' _ c h2
        refine ⟨h1.1, h1.2, hslash, ?_, ?_⟩
        · intro hm
          exact hb ((htch _ (mem_splitOnChar_subset '/' _ c h2 _ hm)).1)
        · intro ch hch
          exact invFilename_of_invPath ch
            ((htch ch (mem_splitOnChar_subset '/' _ c h2 ch hch)).2)
            (fun he => hslash (he ▸ hch))
      have hbsn : bsToSlash (posixNormpath (subChars isInvalidPathChar [] x))
          = posixNormpath (subChars isInvalidPathChar [] x) := by
        apply bsToSlash_eq_self
        rw [hn]
        intro hm
        rcases List.mem_append.mp hm with hm | hm
        · have := List.eq_of_mem_replicate hm
          simp at this
        · rcases mem_intercalate_sep '/' cs _ hm with hm | ⟨p, hp, hmp⟩
          · simp at hm
          · exact (hcompfacts p hp).2.2.2.1 hmp
      have hfnames : ∀ c ∈ cs, fnameL c ≠ [] := by
        intro c hc
        rw [fnameL_clean c ((hcompfacts c hc).2.2.2.2)]
        exact (hcompfacts c hc).1
      have hfree : ∀ p ∈ cs, '/' ∉ p := fun p hp => (hcompfacts p hp).2.2.1
      unfold assembleL
      rw [if_neg ht, hbsn, hn]
      rcases hk : normSlashes (subChars isInvalidPathChar [] x) with _ | k'
      · -- relative output
        have hcsne : cs ≠ [] := by
          rcases hk1 with h | h
          · omega
          · exact h
        rcases hdtc hk with ⟨m, ds, hcseq, hdsnodd⟩
        rw [show List.replicate 0 '/' ++ List.intercalate ['/'] cs
            = List.intercalate ['/'] cs from by simp,
          splitOnChar_intercalate '/' cs hcsne hfree,
          procL_maps cs [] hfnames]
        right
        right
        right
        refine ⟨m, (ds.map procC), ?_, ?_, ?_⟩
        · rw [hcseq, List.map_append, List.map_replicate, procC_dotdot]
          simp
        · rw [show List.replicate m ['.', '.'] ++ ds.map procC
              = (List.replicate m ['.', '.'] ++ ds).map procC from by
            rw [List.map_append, List.map_replicate, procC_dotdot]]
          rw [← hcseq]
          simpa using hcsne
        · intro d' hd'
          rcases List.mem_map.mp hd' with ⟨d, hd, hde⟩
          have hdm : d ∈ cs := by rw [hcseq]; exact List.mem_append_right _ hd
          have hf := hcompfacts d hdm
          exact hde ▸ cleanComp_procC d hf.1 hf.2.1
            (fun he => hdsnodd (he ▸ hd)) hf.2.2.2.1 hf.2.2.2.2
      · -- absolute output, one or two leading slashes
        have hnodd' : ['.', '.'] ∉ cs := hnodd (by omega)
        have hk2 : k' ≤ 1 := by
          have := normSlashes_le (subChars isInvalidPathChar [] x)
          omega
        have habs : cs ≠ [] →
            canonicalOut (List.intercalate ['/'] (procL ([] :: cs) [])) := by
          intro hcsne
          rw [procL_nil_head, procL_maps cs [[]] hfnames]
          right
          right
          left
          refine ⟨cs.map procC, ?_, by simpa using hcsne, ?_⟩
          · rw [show ([[]] : List (List Char)).reverse ++ cs.map procC
                = [] :: cs.map procC from rfl]
            rcases hmap : cs.map procC with _ | ⟨q, qs⟩
            · exact absurd (List.map_eq_nil_iff.mp hmap) hcsne
            · rw [intercalate_cons_cons]
              simp
          · intro d' hd'
            rcases List.mem_map.mp hd' with ⟨d, hd, hde⟩
            have hf := hcompfacts d hd
            exact hde ▸ cleanComp_procC d hf.1 hf.2.1
              (fun he => hnodd' (he ▸ hd)) hf.2.2.2.1 hf.2.2.2.2
        rcases hkk : k' with _ | k''
        · -- exactly one slash
          rw [show List.replicate 1 '/' ++ List.intercalate ['/'] cs
              = '/' :: List.intercalate ['/'] cs from by simp,
            splitOnChar_cons_sep]
          by_cases hcase : cs = []
          · subst hcase
            left
            rfl
          · rw [splitOnChar_intercalate '/' cs hcase hfree]
            exact habs hcase
        · -- two slashes
          have hk''0 : k'' = 0 := by omega
          subst hk''0
          rw [show List.replicate 2 '/' ++ List.intercalate ['/'] cs
              = '/' :: '/' :: List.intercalate ['/'] cs from by simp
                [List.replicate_succ],
            splitOnChar_cons_sep, splitOnChar_cons_sep]
          by_cases hcase : cs = []
          · subst hcase
            left
            rfl
          · rw [splitOnChar_intercalate '/' cs hcase hfree, procL_nil_head,
              procL_nil_skip cs [[]] (by simp), ← procL_nil_head]
            exact habs hcase

theorem assembleL_fixed (x : List Char) (hb : '\\' ∉ x) :
    assembleL (assembleL x) = assembleL x :=
  assembleL_canonical_fixed _ (assembleL_canonical x hb)

/-! ## Helper lemmas for the claim theorems -/

theorem posixIsAbs_head (v : List Char) (h : posixIsAbs v = true) :
    ∃ rest, v = '/' :: rest := by
  cases v with
  | nil => simp [posixIsAbs] at h
  | cons c cs =>
    unfold posixIsAbs at h
    simp at h
    exact ⟨cs, by rw [h]⟩

theorem iwo_cons_false (c : Char) (rest : List Char)
    (hc : (c == ' ' || c == '\t' || c == '\n' || c == '\r' || c.toNat == 11
      || c.toNat == 12) = false) :
    isWhitespaceOnly (c :: rest) = false := by
  unfold isWhitespaceOnly
  rw [List.all_cons, hc]
  simp

theorem pathtype_windows_slash (rest : List Char) :
    validatePathtypeStr false ('/' :: rest) = .ok () := by
  unfold validatePathtypeStr
  rw [if_neg (by simp : ¬('/' :: rest : List Char) = [])]
  rw [if_neg (by rw [iwo_cons_false '/' rest rfl]; simp)]

theorem ntSplitdrive_nil : ntSplitdrive [] = ([], []) := rfl

theorem validate_eq_abspath_error (cfg : BaseCfg) (v : List Char) (e : PvError)
    (h1 : validatePathtypeStr (!isWindowsIncl cfg.pf) v = .ok ())
    (h2 : FilePathValidator.validateAbspath cfg v = .error e) :
    FilePathValidator.validate cfg v = .error e := by
  unfold FilePathValidator.validate
  rw [h1]
  dsimp only
  rw [h2]

theorem validateAbspath_windows_posix (v : List Char) (hp : posixIsAbs v = true)
    (hn : ntIsAbs v = false) :
    FilePathValidator.validateAbspath (defaultCfg .windows) v
      = .error (.validation .malformedAbsPath) := by
  unfold FilePathValidator.validateAbspath
  dsimp only
  rw [if_neg (by rw [hn, hp]; decide), if_pos (by rw [hp]; decide)]

theorem validateAbspath_linux_drive (v : List Char) (hn : ntIsAbs v = true)
    (hp : posixIsAbs v = false) (hd : (ntSplitdrive v).1 ≠ []) :
    FilePathValidator.validateAbspath (defaultCfg .linux) v
      = .error (.validation .malformedAbsPath) := by
  unfold FilePathValidator.validateAbspath
  dsimp only
  rw [if_neg (by rw [hn, hp]; decide), if_neg (by rw [hp]; decide),
    if_pos ⟨by decide, hd, hn⟩]

theorem defaultMaxPathLen_pos (pf : Platform) : 1 ≤ defaultMaxPathLen pf := by
  cases pf <;> decide

theorem baseFileInit_ok (minL maxL : Int) (cr : Bool) (pf : Platform) (cfg : BaseCfg)
    (h : baseFileInit minL maxL cr none pf = .ok cfg) :
    1 ≤ cfg.minLen ∧ cfg.minLen ≤ cfg.maxLen ∧ cfg.maxLen ≤ defaultMaxPathLen pf
    ∧ (defaultMaxPathLen pf < maxL → cfg.maxLen = defaultMaxPathLen pf)
    ∧ (maxL ≤ 0 → cfg.maxLen = defaultMaxPathLen pf) := by
  have hD := defaultMaxPathLen_pos pf
  unfold baseFileInit at h
  dsimp only [Option.getD] at h
  split_ifs at h <;>
    first
      | exact Except.noConfusion h
      | (rw [← Except.ok.inj h]
         dsimp only
         refine ⟨by omega, by omega, by omega, fun hlt => by omega, fun hle => by omega⟩)

theorem NullHandler_apply_returnValue (s : List Char) :
    (NullHandler.returnValue s).apply = .ok s := rfl

theorem fnameSanitize_returnValue_ok (pf : Platform) (cr : Bool)
    (s rep e : List Char) :
    ∃ y, fnameSanitize pf cr (.returnValue s) rep e = .ok y := by
  cases hres : fnameSanitize pf cr (.returnValue s) rep e with
  | ok y => exact ⟨y, rfl⟩
  | error er =>
    exfalso
    unfold fnameSanitize at hres
    split at hres
    · rw [NullHandler_apply_returnValue] at hres
      exact Except.noConfusion hres
    · dsimp only at hres
      split at hres <;>
        (rw [NullHandler_apply_returnValue] at hres
         split at hres <;> exact Except.noConfusion hres)

theorem sanitizeEntriesAux_returnValue_ok (pf : Platform) (cr : Bool)
    (s rep : List Char) :
    ∀ es acc, ∃ ys, sanitizeEntriesAux pf cr (.returnValue s) rep es acc = .ok ys := by
  intro es
  induction es with
  | nil => intro acc; exact ⟨acc.reverse, rfl⟩
  | cons e rest ih =>
    intro acc
    cases hres : sanitizeEntriesAux pf cr (.returnValue s) rep (e :: rest) acc with
    | ok ys => exact ⟨ys, rfl⟩
    | error er =>
      exfalso
      unfold sanitizeEntriesAux at hres
      split at hres
      · rcases ih ((e ++ ['_']) :: acc) with ⟨ys, hys⟩
        rw [hres] at hys
        exact absurd hys (by simp)
      · rcases fnameSanitize_returnValue_ok pf cr s rep e with ⟨y, hy⟩
        rw [hy] at hres
        dsimp only at hres
        split at hres
        · split at hres
          · rcases ih ([] :: acc) with ⟨ys, hys⟩
            rw [hres] at hys
            exact absurd hys (by simp)
          · rcases ih acc with ⟨ys, hys⟩
            rw [hres] at hys
            exact absurd hys (by simp)
        · rcases ih (y :: acc) with ⟨ys, hys⟩
          rw [hres] at hys
          exact absurd hys (by simp)

theorem assemble_returnValue_ok (cfg : SanitizerCfg) (s : List Char)
    (hh : cfg.handler = .returnValue s) (rep x : List Char) :
    ∃ y, FilePathSanitizer.assemble cfg rep x = .ok y := by
  unfold FilePathSanitizer.assemble
  rw [hh]
  dsimp only
  rcases sanitizeEntriesAux_returnValue_ok cfg.base.pf cfg.base.checkReserved s rep _ _
    with ⟨ys, hys⟩
  rw [hys]
  exact ⟨_, rfl⟩

/-! ## Claim theorems -/

/-- Claim C1: the claim states that under the UNIVERSAL platform every
POSIX-absolute or Windows-absolute style path raises MALFORMED_ABS_PATH, in
particular the drive-less Windows-rooted form "\a\b".  The code accepts that
input: the backslash-rooted, drive-less path (the root extracted by
`ntpath.splitroot` is "\" and the drive is empty, and the path is not
POSIX-absolute) passes `FilePathValidator.validate` under Universal without
any error, because the universal branch of `validate_abspath` constructs its
`ValidationError` without raising it and the remaining checks do not cover
drive-less rooted forms. -/
theorem universal_accepts_backslash_rooted :
    posixIsAbs ['\\', 'a', '\\', 'b'] = false
    ∧ (ntSplitdrive ['\\', 'a', '\\', 'b']).1 = []
    ∧ (ntSplitroot ['\\', 'a', '\\', 'b']).2.1 = ['\\']
    ∧ FilePathValidator.validate (defaultCfg .universal) ['\\', 'a', '\\', 'b']
        = .ok () :=
  ⟨rfl, rfl, rfl, rfl⟩

/-- Claim C2, counterexample: the claim states that `is_valid` does not
convert type-mismatch errors into false.  On the integer input 1, `validate`
raises a type-mismatch error, yet `is_valid` returns false rather than
propagating it — `_base.py` line 118 catches `TypeError` alongside
`ValidationError`. -/
theorem isValid_swallows_type_mismatch :
    FilePathValidator.isValidInput (defaultCfg .universal) (.intVal 1) = false
    ∧ FilePathValidator.validateInput (defaultCfg .universal) (.intVal 1)
        = .error .typeMismatch :=
  ⟨rfl, rfl⟩

/-- Claim C2, amended: `is_valid` returns false exactly when `validate`
raises any error — a validation error carrying an `ErrorReason` or a
type-mismatch error; both are converted into false. -/
theorem isValid_false_iff_validate_error (cfg : BaseCfg) (v : PathInput) :
    FilePathValidator.isValidInput cfg v = false
      ↔ ∃ e, FilePathValidator.validateInput cfg v = .error e := by
  unfold FilePathValidator.isValidInput
  cases h : FilePathValidator.validateInput cfg v with
  | error e => simp
  | ok u => simp

/-- Claim C3, counterexample: sanitization is not idempotent.  On the Linux
platform with the default configuration and empty replacement text, the input
"a\.." sanitizes to "a/.." (the host normalization runs before the
backslash-to-slash separator split), and sanitizing "a/.." again yields ".". -/
theorem sanitize_linux_not_idempotent :
    FilePathSanitizer.sanitize (defaultSanitizerCfg .linux) [] ['a', '\\', '.', '.']
        = .ok ['a', '/', '.', '.']
    ∧ FilePathSanitizer.sanitize (defaultSanitizerCfg .linux) [] ['a', '/', '.', '.']
        = .ok ['.']
    ∧ (['a', '/', '.', '.'] : List Char) ≠ ['.'] :=
  ⟨rfl, rfl, by decide⟩

/-- Claim C3, amended: on the Linux platform with the default configuration
and the default (empty) replacement text, sanitization is idempotent for
every input that contains no backslash character:
sanitize (sanitize x) = sanitize x. -/
theorem sanitize_linux_idempotent_no_backslash (x : List Char) (hb : '\\' ∉ x) :
    (FilePathSanitizer.sanitize (defaultSanitizerCfg .linux) [] x).bind
        (FilePathSanitizer.sanitize (defaultSanitizerCfg .linux) [])
      = FilePathSanitizer.sanitize (defaultSanitizerCfg .linux) [] x := by
  rw [sanitizeLinux_eq x]
  show FilePathSanitizer.sanitize (defaultSanitizerCfg .linux) [] (assembleL x)
      = Except.ok (assembleL x)
  rw [sanitizeLinux_eq (assembleL x), assembleL_fixed x hb]

/-- Claim C3, witness for the amended theorem at the concrete backslash-free
input "a/../b". -/
theorem sanitize_linux_idempotent_witness :
    (FilePathSanitizer.sanitize (defaultSanitizerCfg .linux) []
        ['a', '/', '.', '.', '/', 'b']).bind
        (FilePathSanitizer.sanitize (defaultSanitizerCfg .linux) [])
      = FilePathSanitizer.sanitize (defaultSanitizerCfg .linux) []
        ['a', '/', '.', '.', '/', 'b'] :=
  sanitize_linux_idempotent_no_backslash ['a', '/', '.', '.', '/', 'b'] (by decide)

/-- Claim C4: the claim (and the `sanitize_filepath` docstring, `_filepath.py`
lines 423-426) promise that a sanitized path is valid, with over-long paths
truncated to `max_len`.  The code performs no whole-path truncation: the
261-byte path of 131 one-byte components is returned unchanged by
`sanitize` under the Universal platform and then rejected by the validator
with INVALID_LENGTH, so `is_valid(sanitize(x))` is false on an input that is
neither empty-sanitizing nor handled by the raising strategy. -/
theorem sanitize_no_truncation :
    FilePathSanitizer.sanitize (defaultSanitizerCfg .universal) [] overlongPathA
        = .ok overlongPathA
    ∧ FilePathValidator.isValidStr (defaultCfg .universal) overlongPathA = false
    ∧ FilePathValidator.validate (defaultCfg .universal) overlongPathA
        = .error (.validation .invalidLength)
    ∧ (utf8Len overlongPathA : Int) = 261 ∧ (defaultCfg .universal).maxLen = 260 :=
  ⟨rfl, rfl, rfl, rfl, rfl⟩

/-- Claim C5: under the WINDOWS platform a purely POSIX-absolute input raises
MALFORMED_ABS_PATH, and under the LINUX platform a Windows-drive-absolute
input (NT-absolute with a nonempty drive, not POSIX-absolute) raises
MALFORMED_ABS_PATH. -/
theorem abs_style_mismatch (v : List Char) :
    (posixIsAbs v = true → ntIsAbs v = false →
      FilePathValidator.validate (defaultCfg .windows) v
        = .error (.validation .malformedAbsPath))
    ∧ (ntIsAbs v = true → posixIsAbs v = false → (ntSplitdrive v).1 ≠ [] →
      FilePathValidator.validate (defaultCfg .linux) v
        = .error (.validation .malformedAbsPath)) := by
  constructor
  · intro hp hn
    rcases posixIsAbs_head v hp with ⟨rest, hrest⟩
    refine validate_eq_abspath_error (defaultCfg .windows) v _ ?_
      (validateAbspath_windows_posix v hp hn)
    rw [hrest]
    exact pathtype_windows_slash rest
  · intro hn hp hd
    refine validate_eq_abspath_error (defaultCfg .linux) v _ ?_
      (validateAbspath_linux_drive v hn hp hd)
    have hvne : v ≠ [] := by
      intro he
      rw [he, ntSplitdrive_nil] at hd
      exact hd rfl
    have harg : (!isWindowsIncl (defaultCfg Platform.linux).pf) = true := rfl
    rw [harg, validatePathtypeStr_linux, if_neg hvne]

/-- Claim C5, witness at the concrete inputs "/a/b" (Windows platform) and
"C:\a\b" (Linux platform). -/
theorem abs_style_mismatch_witness :
    FilePathValidator.validate (defaultCfg .windows) ['/', 'a', '/', 'b']
        = .error (.validation .malformedAbsPath)
    ∧ FilePathValidator.validate (defaultCfg .linux) ['C', ':', '\\', 'a', '\\', 'b']
        = .error (.validation .malformedAbsPath) :=
  ⟨(abs_style_mismatch ['/', 'a', '/', 'b']).1 (by decide) (by decide),
   (abs_style_mismatch ['C', ':', '\\', 'a', '\\', 'b']).2 (by decide) (by decide)
     (by decide)⟩

/-- Claim C6, counterexample: the claim states that a path whose tail is the
reserved whole-path token "/" raises RESERVED_NAME on Linux.  The code
validates "/" successfully on Linux even though "/" is in the platform's
reserved-keyword table, because the check compares the extracted root name
(basename with extension stripped) and the root name of "/" is empty. -/
theorem slash_path_validates_on_linux :
    FilePathValidator.validate (defaultCfg .linux) ['/'] = .ok ()
    ∧ (['/'] : List Char) ∈ filePathReservedKeywords .linux
    ∧ extractRootName ['/'] = [] :=
  ⟨rfl, by decide, rfl⟩

/-- Claim C6, amended: with reserved checking enabled the whole-tail
reserved-keyword check runs before the per-component and character checks and
compares the tail's extracted root name with the platform table, so a tail
whose root name is ":" raises RESERVED_NAME on POSIX, macOS and Universal
(on Universal the reason is RESERVED_NAME even though ":" is also an invalid
Windows path character, showing the ordering), while a bare "/" — whose root
name is empty — validates successfully on every POSIX-family platform. -/
theorem reserved_root_name_check :
    FilePathValidator.validate (defaultCfg .posix) [':']
        = .error (.validation .reservedName)
    ∧ FilePathValidator.validate (defaultCfg .macos) [':']
        = .error (.validation .reservedName)
    ∧ FilePathValidator.validate (defaultCfg .universal) [':']
        = .error (.validation .reservedName)
    ∧ FilePathValidator.validate (defaultCfg .posix) ['/'] = .ok ()
    ∧ extractRootName [':'] = [':'] :=
  ⟨rfl, rfl, rfl, rfl, rfl⟩

/-- Claim C7: construction of the engine configuration establishes the
invariant 1 ≤ min_len ≤ max_len ≤ platform ceiling (the ceiling being 4096
for Linux, 1024 for macOS/POSIX, 260 for Windows/Universal); a max_len above
the ceiling is clamped to the ceiling; an unset (non-positive) max_len
defaults to the ceiling; and a violating combination (e.g. min_len 500 on
Windows with a derived max_len of 260) fails fast with an error.  The
configuration is immutable, so every later operation preserves the
invariant. -/
theorem base_config_invariant :
    (∀ (minL maxL : Int) (cr : Bool) (pf : Platform) (cfg : BaseCfg),
        baseFileInit minL maxL cr none pf = .ok cfg →
          1 ≤ cfg.minLen ∧ cfg.minLen ≤ cfg.maxLen
            ∧ cfg.maxLen ≤ defaultMaxPathLen pf)
    ∧ (∀ (minL maxL : Int) (cr : Bool) (pf : Platform) (cfg : BaseCfg),
        defaultMaxPathLen pf < maxL →
        baseFileInit minL maxL cr none pf = .ok cfg →
          cfg.maxLen = defaultMaxPathLen pf)
    ∧ (∀ (minL maxL : Int) (cr : Bool) (pf : Platform) (cfg : BaseCfg),
        maxL ≤ 0 →
        baseFileInit minL maxL cr none pf = .ok cfg →
          cfg.maxLen = defaultMaxPathLen pf)
    ∧ (∃ e, baseFileInit 500 (-1) true none .windows = .error e) := by
  refine ⟨?_, ?_, ?_, ⟨['m', 'i', 'n'], rfl⟩⟩
  · intro minL maxL cr pf cfg h
    have hc := baseFileInit_ok minL maxL cr pf cfg h
    exact ⟨hc.1, hc.2.1, hc.2.2.1⟩
  · intro minL maxL cr pf cfg hlt h
    exact (baseFileInit_ok minL maxL cr pf cfg h).2.2.2.1 hlt
  · intro minL maxL cr pf cfg hle h
    exact (baseFileInit_ok minL maxL cr pf cfg h).2.2.2.2 hle

/-- Claim C7, witness: instantiating the invariant and the clamp at min_len 1,
max_len 300 on Windows, whose construction succeeds with max_len clamped to
the 260-byte ceiling. -/
theorem base_config_invariant_witness :
    1 ≤ ({ pf := .windows, minLen := 1, maxLen := 260,
           checkReserved := true } : BaseCfg).minLen
    ∧ ({ pf := .windows, minLen := 1, maxLen := 260,
         checkReserved := true } : BaseCfg).minLen
      ≤ ({ pf := .windows, minLen := 1, maxLen := 260,
           checkReserved := true } : BaseCfg).maxLen
    ∧ ({ pf := .windows, minLen := 1, maxLen := 260,
         checkReserved := true } : BaseCfg).maxLen ≤ defaultMaxPathLen .windows :=
  base_config_invariant.1 1 300 true .windows
    { pf := .windows, minLen := 1, maxLen := 260, checkReserved := true } rfl

/-- Claim C8: whenever the type/null check and the absolute-path check pass
and the drive/tail split leaves an empty tail (a bare drive such as "C:"),
`FilePathValidator.validate` succeeds trivially, skipping the length,
reserved-name and character checks — in particular even though the empty
tail's byte length is below `min_len`. -/
theorem empty_tail_trivially_valid (cfg : BaseCfg) (v : List Char)
    (h1 : validatePathtypeStr (!isWindowsIncl cfg.pf) v = .ok ())
    (h2 : FilePathValidator.validateAbspath cfg v = .ok ())
    (h3 : (splitDriveFor cfg.pf v).2 = []) :
    FilePathValidator.validate cfg v = .ok () := by
  unfold FilePathValidator.validate
  rw [h1]
  dsimp only
  rw [h2]
  dsimp only
  rw [h3]
  rw [if_pos rfl]

/-- Claim C8, witness at the bare drive "C:" under the Windows platform (its
tail is empty and its length 0 is below the default min_len of 1). -/
theorem empty_tail_trivially_valid_witness :
    FilePathValidator.validate (defaultCfg .windows) ['C', ':'] = .ok () :=
  empty_tail_trivially_valid (defaultCfg .windows) ['C', ':'] rfl rfl rfl

/-- Claim C9: for a path passing the type and absolute-path checks with a
nonempty tail, `validate` raises INVALID_LENGTH exactly when the tail's
UTF-8 byte length is strictly greater than max_len or strictly less than
min_len; in particular a tail of exactly max_len passes the length check. -/
theorem length_check_iff (cfg : BaseCfg) (v : List Char)
    (h1 : validatePathtypeStr (!isWindowsIncl cfg.pf) v = .ok ())
    (h2 : FilePathValidator.validateAbspath cfg v = .ok ())
    (h3 : (splitDriveFor cfg.pf v).2 ≠ []) :
    FilePathValidator.validate cfg v = .error (.validation .invalidLength)
      ↔ ((utf8Len (splitDriveFor cfg.pf v).2 : Int) > cfg.maxLen
        ∨ (utf8Len (splitDriveFor cfg.pf v).2 : Int) < cfg.minLen) := by
  unfold FilePathValidator.validate
  rw [h1]
  dsimp only
  rw [h2]
  dsimp only
  rw [if_neg h3]
  by_cases hmax : (utf8Len (splitDriveFor cfg.pf v).2 : Int) > cfg.maxLen
  · rw [if_pos hmax]
    exact iff_of_true rfl (Or.inl hmax)
  · rw [if_neg hmax]
    by_cases hmin : (utf8Len (splitDriveFor cfg.pf v).2 : Int) < cfg.minLen
    · rw [if_pos hmin]
      exact iff_of_true rfl (Or.inr hmin)
    · rw [if_neg hmin]
      refine iff_of_false ?_ (by omega)
      intro hcontra
      cases hrk : validateReservedKeywords (filePathReservedKeywords cfg.pf)
          cfg.checkReserved ((splitDriveFor cfg.pf v).2) with
      | error e3 =>
        rw [hrk] at hcontra
        dsimp only at hcontra
        rw [validateReservedKeywords_error _ _ _ _ hrk] at hcontra
        simp at hcontra
      | ok u3 =>
        cases u3
        rw [hrk] at hcontra
        dsimp only at hcontra
        cases hce : checkEntries (fnameReservedKeywords cfg.pf) cfg.checkReserved
            (splitOnChar '/' (bsToSlash (splitDriveFor cfg.pf v).2)) with
        | error e4 =>
          rw [hce] at hcontra
          dsimp only at hcontra
          rw [checkEntries_error _ _ _ _ hce] at hcontra
          simp at hcontra
        | ok u4 =>
          cases u4
          rw [hce] at hcontra
          dsimp only at hcontra
          split at hcontra
          · rcases winFilepathCheck_error _ _ hcontra with h5 | h5 <;> simp at h5
          · have h6 := unixFilepathCheck_error _ _ hcontra
            simp at h6

/-- Claim C9, witness: a 261-byte tail under the Universal platform
(max_len 260) raises INVALID_LENGTH, and a 260-byte tail — exactly max_len —
does not. -/
theorem length_check_iff_witness :
    FilePathValidator.validate (defaultCfg .universal) (List.replicate 261 'a')
        = .error (.validation .invalidLength)
    ∧ FilePathValidator.validate (defaultCfg .universal) (List.replicate 260 'a')
        ≠ .error (.validation .invalidLength) :=
  ⟨(length_check_iff (defaultCfg .universal) (List.replicate 261 'a')
      rfl rfl (by decide)).mpr (Or.inl (by decide)),
   fun hc => absurd ((length_check_iff (defaultCfg .universal)
      (List.replicate 260 'a') rfl rfl (by decide)).mp hc) (by decide)⟩

/-- Claim C10: with `validate_after_sanitize` false (and the default
null-value handler), `FilePathSanitizer.sanitize` never raises from the final
validation of the assembled result: sanitization always returns a value; when
the assembled result fails validation with NULL_NAME it is replaced by the
null-value handler's value (the empty string for the default handler); and
every other validation failure is silently discarded, so sanitize can return
a value the path validator rejects — witnessed by a 261-byte path returned
unchanged although validation rejects it with INVALID_LENGTH. -/
theorem sanitize_discards_final_validation :
    (∀ x : List Char, ∃ y,
        FilePathSanitizer.sanitize (defaultSanitizerCfg .universal) [] x = .ok y)
    ∧ (∀ (x sp : List Char),
        FilePathSanitizer.assemble (defaultSanitizerCfg .universal) [] x = .ok sp →
        FilePathValidator.validate (defaultCfg .universal) sp
          = .error (.validation .nullName) →
        validatePathtypeStr false x = .ok () →
        FilePathSanitizer.sanitize (defaultSanitizerCfg .universal) [] x = .ok [])
    ∧ (FilePathSanitizer.sanitize (defaultSanitizerCfg .universal) [] overlongPathB
          = .ok overlongPathB
        ∧ FilePathValidator.validate (defaultCfg .universal) overlongPathB
          = .error (.validation .invalidLength)) := by
  refine ⟨?_, ?_, rfl, rfl⟩
  · intro x
    cases hpt : validatePathtypeStr
        (!isWindowsIncl (defaultSanitizerCfg Platform.universal).base.pf) x with
    | error e =>
      have he := validatePathtypeStr_error _ _ _ hpt
      subst he
      refine ⟨[], ?_⟩
      unfold FilePathSanitizer.sanitize
      rw [hpt]
      rfl
    | ok u =>
      cases u
      rcases assemble_returnValue_ok (defaultSanitizerCfg .universal) [] rfl [] x
        with ⟨sp, hsp⟩
      unfold FilePathSanitizer.sanitize
      rw [hpt]
      dsimp only
      rw [hsp]
      dsimp only
      cases hv : FilePathValidator.validate
          (defaultSanitizerCfg Platform.universal).base sp with
      | ok u2 =>
        cases u2
        exact ⟨sp, rfl⟩
      | error e =>
        cases e with
        | typeMismatch => exact ⟨sp, rfl⟩
        | validation r =>
          cases r with
          | nullName => exact ⟨[], rfl⟩
          | invalidCharacter => exact ⟨sp, rfl⟩
          | invalidLength => exact ⟨sp, rfl⟩
          | reservedName => exact ⟨sp, rfl⟩
          | malformedAbsPath => exact ⟨sp, rfl⟩
  · intro x sp hasm hnull hpt
    have hpt' : validatePathtypeStr
        (!isWindowsIncl (defaultSanitizerCfg Platform.universal).base.pf) x
        = .ok () := hpt
    have hnull' : FilePathValidator.validate
        (defaultSanitizerCfg Platform.universal).base sp
        = .error (.validation .nullName) := hnull
    unfold FilePathSanitizer.sanitize
    rw [hpt']
    dsimp only
    rw [hasm]
    dsimp only
    rw [hnull']
    rfl

/-- Claim C10, witness: the input "/" assembles to the empty string, whose
validation fails with NULL_NAME, and sanitize returns the default handler's
empty string. -/
theorem sanitize_discards_final_validation_witness :
    FilePathSanitizer.sanitize (defaultSanitizerCfg .universal) [] ['/'] = .ok [] :=
  sanitize_discards_final_validation.2.1 ['/'] [] rfl rfl rfl

end Pathvalidate
